import Mathlib

/-!
# Blockchain voting node: ledger model, proof of work, replication

A shallow embedding of the Go packages `block`, `consensus`, `network` and of
`cmd/voting-node`, followed by theorems about them.

Conventions of the embedding:
* a Go `string` is a Lean `String`; a `[]byte` is a `List Nat` of values below 256;
* Go `int`, `int64` and `time.Duration` values are `Int`; where the source does
  arithmetic on them the 64-bit wrap-around is explicit (`wrapInt64`);
* `crypto/sha256` is transcribed from FIPS 180-4 so that hashes can be evaluated;
* the `encoding/gob` and `encoding/json` codecs are represented by their results
  (a decoded value or an error), the file system by an explicit state;
* goroutine interleavings and the random source are an explicit schedule.
-/

namespace Voting

/-! ## crypto/sha256 -/

namespace Sha256

/-- Modulus of 32-bit words. -/
def mask32 : Nat := 4294967296

/-- Addition of 32-bit words. -/
def add32 (a b : Nat) : Nat := (a + b) % mask32

/-- Rotate a 32-bit word right by `n` bits. -/
def rotr (x n : Nat) : Nat := ((x >>> n) ||| (x <<< (32 - n))) % mask32

/-- Bitwise complement of a 32-bit word. -/
def not32 (x : Nat) : Nat := mask32 - 1 - x % mask32

/-- Round constants. -/
def K : List Nat := [
  0x428a2f98, 0x71374491, 0xb5c0fbcf, 0xe9b5dba5, 0x3956c25b, 0x59f111f1, 0x923f82a4, 0xab1c5ed5,
  0xd807aa98, 0x12835b01, 0x243185be, 0x550c7dc3, 0x72be5d74, 0x80deb1fe, 0x9bdc06a7, 0xc19bf174,
  0xe49b69c1, 0xefbe4786, 0x0fc19dc6, 0x240ca1cc, 0x2de92c6f, 0x4a7484aa, 0x5cb0a9dc, 0x76f988da,
  0x983e5152, 0xa831c66d, 0xb00327c8, 0xbf597fc7, 0xc6e00bf3, 0xd5a79147, 0x06ca6351, 0x14292967,
  0x27b70a85, 0x2e1b2138, 0x4d2c6dfc, 0x53380d13, 0x650a7354, 0x766a0abb, 0x81c2c92e, 0x92722c85,
  0xa2bfe8a1, 0xa81a664b, 0xc24b8b70, 0xc76c51a3, 0xd192e819, 0xd6990624, 0xf40e3585, 0x106aa070,
  0x19a4c116, 0x1e376c08, 0x2748774c, 0x34b0bcb5, 0x391c0cb3, 0x4ed8aa4a, 0x5b9cca4f, 0x682e6ff3,
  0x748f82ee, 0x78a5636f, 0x84c87814, 0x8cc70208, 0x90befffa, 0xa4506ceb, 0xbef9a3f7, 0xc67178f2]

/-- Padding: the message, the byte 0x80, zero bytes up to 56 modulo 64, and the
bit length of the message as eight big-endian bytes. -/
def pad (msg : List Nat) : List Nat :=
  let l := msg.length
  let z := (119 - l % 64) % 64
  msg ++ [0x80] ++ List.replicate z 0 ++
    (List.range 8).map (fun i => (l * 8) >>> (8 * (7 - i)) % 256)

/-- Big-endian 32-bit word of four bytes. -/
def word (b0 b1 b2 b3 : Nat) : Nat := ((b0 * 256 + b1) * 256 + b2) * 256 + b3

/-- Split a byte sequence into big-endian 32-bit words. -/
def words : List Nat → List Nat
  | b0 :: b1 :: b2 :: b3 :: rest => word b0 b1 b2 b3 :: words rest
  | _ => []

def ssig0 (x : Nat) : Nat := rotr x 7 ^^^ rotr x 18 ^^^ (x >>> 3)

def ssig1 (x : Nat) : Nat := rotr x 17 ^^^ rotr x 19 ^^^ (x >>> 10)

def bsig0 (x : Nat) : Nat := rotr x 2 ^^^ rotr x 13 ^^^ rotr x 22

def bsig1 (x : Nat) : Nat := rotr x 6 ^^^ rotr x 11 ^^^ rotr x 25

def ch (x y z : Nat) : Nat := (x &&& y) ^^^ (not32 x &&& z)

def maj (x y z : Nat) : Nat := (x &&& y) ^^^ (x &&& z) ^^^ (y &&& z)

/-- Extend the message schedule by `n` words; the schedule is kept newest
first, so position 1 is W[t-2], 6 is W[t-7], 14 is W[t-15], 15 is W[t-16]. -/
def extend : Nat → List Nat → List Nat
  | 0, w => w
  | n + 1, w =>
    let nw := add32 (add32 (ssig1 (w.getD 1 0)) (w.getD 6 0))
      (add32 (ssig0 (w.getD 14 0)) (w.getD 15 0))
    extend n (nw :: w)

/-- The 64 schedule words W[0..63] of one 16-word block. -/
def schedule (blk : List Nat) : List Nat := (extend 48 blk.reverse).reverse

/-- The eight working registers. -/
structure Regs where
  a : Nat
  b : Nat
  c : Nat
  d : Nat
  e : Nat
  f : Nat
  g : Nat
  h : Nat

/-- One compression round with round constant `kw.1` and schedule word `kw.2`. -/
def round (s : Regs) (kw : Nat × Nat) : Regs :=
  let t1 := add32 (add32 (add32 s.h (bsig1 s.e)) (add32 (ch s.e s.f s.g) kw.1)) kw.2
  let t2 := add32 (bsig0 s.a) (maj s.a s.b s.c)
  ⟨add32 t1 t2, s.a, s.b, s.c, add32 s.d t1, s.e, s.f, s.g⟩

/-- Compression of one block into the chaining value. -/
def compress (s : Regs) (blk : List Nat) : Regs :=
  let r := (K.zip (schedule blk)).foldl round s
  ⟨add32 s.a r.a, add32 s.b r.b, add32 s.c r.c, add32 s.d r.d,
   add32 s.e r.e, add32 s.f r.f, add32 s.g r.g, add32 s.h r.h⟩

/-- The first `n` 16-word blocks of a word sequence. -/
def blocks : Nat → List Nat → List (List Nat)
  | 0, _ => []
  | n + 1, ws => ws.take 16 :: blocks n (ws.drop 16)

/-- Initial chaining value. -/
def initRegs : Regs :=
  ⟨0x6a09e667, 0xbb67ae85, 0x3c6ef372, 0xa54ff53a, 0x510e527f, 0x9b05688c, 0x1f83d9ab, 0x5be0cd19⟩

/-- The four big-endian bytes of a 32-bit word. -/
def wordBytes (w : Nat) : List Nat := [w >>> 24 % 256, w >>> 16 % 256, w >>> 8 % 256, w % 256]

/-- The 32-byte digest `sha256.Sum256`. -/
def Sum256 (msg : List Nat) : List Nat :=
  let p := pad msg
  let r := (blocks (p.length / 64) (words p)).foldl compress initRegs
  wordBytes r.a ++ wordBytes r.b ++ wordBytes r.c ++ wordBytes r.d ++
    wordBytes r.e ++ wordBytes r.f ++ wordBytes r.g ++ wordBytes r.h

end Sha256

/-! ## Strings, bytes and formatting -/

/-- UTF-8 encoding of one code point. -/
def utf8Char (c : Char) : List Nat :=
  let n := c.toNat
  if n < 0x80 then [n]
  else if n < 0x800 then [0xC0 + n / 64, 0x80 + n % 64]
  else if n < 0x10000 then [0xE0 + n / 4096, 0x80 + n / 64 % 64, 0x80 + n % 64]
  else [0xF0 + n / 262144, 0x80 + n / 4096 % 64, 0x80 + n / 64 % 64, 0x80 + n % 64]

/-- The bytes of a string: the conversion `[]byte(s)`. -/
def utf8 (s : String) : List Nat := s.data.flatMap utf8Char

/-- One lower-case hexadecimal digit. -/
def hexDigit (n : Nat) : Char := if n < 10 then Char.ofNat (48 + n) else Char.ofNat (87 + n)

/-- The verb `%x` applied to a byte array: two lower-case digits per byte. -/
def fmtHex (bs : List Nat) : String := String.mk (bs.flatMap fun b => [hexDigit (b / 16), hexDigit (b % 16)])

/-- The verb `%d` applied to an integer: decimal digits, with a minus sign when negative. -/
def fmtD (i : Int) : String :=
  if i < 0 then "-" ++ Nat.repr i.natAbs else Nat.repr i.natAbs

/-- The function `strings.Repeat`; it panics (here `none`) on a negative count. -/
def Repeat (s : String) (count : Int) : Option String :=
  if count < 0 then none else some (String.mk (List.replicate count.toNat s.data).flatten)

/-- The function `strings.HasPrefix`. -/
def HasPrefix (s pre : String) : Bool := pre.data.isPrefixOf s.data

/-- Reduction of an integer to the range of a 64-bit signed `int`, as Go
arithmetic does on overflow. -/
def wrapInt64 (x : Int) : Int := (x + 9223372036854775808) % 18446744073709551616 - 9223372036854775808

/-! ## Package block -/

/-- VoteData represents the data stored in a block. -/
structure VoteData where
  BallotID : String
  ChoiceID : String
  deriving DecidableEq

/-- Block structure. -/
structure Block where
  Index : Int
  Timestamp : Int
  Data : VoteData
  PrevHash : String
  Hash : String
  Nonce : Int
  deriving DecidableEq

/-- Blockchain is a slice of blocks. -/
abbrev Blockchain := List Block

/-- NewBlock creates a new block; `now` is the reading of `time.Now().Unix()`.
The field `Hash` is left at its zero value. -/
def NewBlock (now : Int) (index : Int) (data : VoteData) (prevHash : String) : Block :=
  { Index := index, Timestamp := now, Data := data, PrevHash := prevHash, Hash := "", Nonce := 0 }

/-- CreateGenesisBlock creates the first block in the blockchain. -/
def CreateGenesisBlock (now : Int) : Block :=
  NewBlock now 0 { BallotID := "genesis", ChoiceID := "genesis" } "0"

/-- The verb `%v` applied to a `VoteData`: the fields between braces, separated by a space. -/
def fmtV (d : VoteData) : String := "\x7b" ++ d.BallotID ++ " " ++ d.ChoiceID ++ "\x7d"

/-- The string `fmt.Sprintf("%d%d%v%s%d", ...)` that CalculateHash digests. -/
def record (b : Block) : String :=
  fmtD b.Index ++ fmtD b.Timestamp ++ fmtV b.Data ++ b.PrevHash ++ fmtD b.Nonce

/-- CalculateHash calculates the hash of a block. -/
def CalculateHash (b : Block) : String := fmtHex (Sha256.Sum256 (utf8 (record b)))

/-- ValidateBlock checks if a block's hash matches its calculated hash. -/
def ValidateBlock (b : Block) : Bool :=
  let calculatedHash := CalculateHash b
  if b.Hash != calculatedHash then false else true

/-- The loop of ValidateBlockchain: `todo` iterations remain and the loop
variable is `i`. -/
def ValidateBlockchain.loop (blockchain : Blockchain) : Nat → Nat → Bool
  | 0, _ => true
  | todo + 1, i =>
    match blockchain.get? i, blockchain.get? (i - 1) with
    | some currentBlock, some previousBlock =>
      if !ValidateBlock currentBlock then false
      else if currentBlock.PrevHash != previousBlock.Hash then false
      else ValidateBlockchain.loop blockchain todo (i + 1)
    | _, _ => true

/-- ValidateBlockchain checks the integrity of the entire blockchain: the loop
`for i := 1; i < len(blockchain); i++` makes `len(blockchain) - 1` iterations. -/
def ValidateBlockchain (blockchain : Blockchain) : Bool :=
  ValidateBlockchain.loop blockchain (blockchain.length - 1) 1

/-- LoadBlockchain and SaveBlockchain work on files.  A file is represented by
what `encoding/json` makes of its bytes. -/
inductive FileContent
  /-- A file of zero bytes. -/
  | empty
  /-- The text `json.MarshalIndent` writes for `chain`, or any other text that
  `json.Unmarshal` decodes to `chain`. -/
  | json (chain : Blockchain)
  /-- A non-empty file on which `json.Unmarshal` fails with error `err`. -/
  | malformed (err : String)
  deriving DecidableEq

/-- The state of the file system as the node sees it. -/
structure FileSystem where
  /-- The content of each path, `none` when the path does not exist (ENOENT). -/
  files : String → Option FileContent
  /-- The error, if any, that reading an existing path fails with. -/
  readError : String → Option String
  /-- The error, if any, that writing a path fails with. -/
  writeError : String → Option String

/-- The function `ioutil.ReadFile`: the error for a missing path is the
`*PathError` text of the open call. -/
def ReadFile (fs : FileSystem) (filename : String) : Except String FileContent :=
  match fs.files filename with
  | none => .error ("open " ++ filename ++ ": no such file or directory")
  | some content =>
    match fs.readError filename with
    | some err => .error err
    | none => .ok content

/-- The function `ioutil.WriteFile`. -/
def WriteFile (fs : FileSystem) (filename : String) (content : FileContent) :
    Except String FileSystem :=
  match fs.writeError filename with
  | some err => .error err
  | none => .ok { fs with files := Function.update fs.files filename (some content) }

/-- The function `json.Unmarshal` into a `Blockchain`. -/
def Unmarshal : FileContent → Except String Blockchain
  | .empty => .error "unexpected end of JSON input"
  | .json chain => .ok chain
  | .malformed err => .error err

/-- SaveBlockchain saves the blockchain to a file (`json.MarshalIndent` does
not fail on a slice of blocks). -/
def SaveBlockchain (fs : FileSystem) (filename : String) (blockchain : Blockchain) :
    Except String FileSystem :=
  WriteFile fs filename (.json blockchain)

/-- LoadBlockchain loads the blockchain from a file. -/
def LoadBlockchain (fs : FileSystem) (filename : String) : Except String Blockchain :=
  match fs.files filename with
  | none => .error "blockchain file does not exist"
  | some _ =>
    match ReadFile fs filename with
    | .error err => .error err
    | .ok fileContent => Unmarshal fileContent

/-! ## Package consensus -/

/-- The duration `time.Millisecond`, in nanoseconds. -/
def Millisecond : Int := 1000000

/-- The duration `time.Second`, in nanoseconds. -/
def Second : Int := 1000000000

/-- Initial difficulty. -/
def initialDifficulty : Int := 3

/-- The function adjustDifficulty dynamically adjusts the difficulty based on
mining time: it maps the value of the package variable `difficulty` before the
call to its value after the call. -/
def adjustDifficulty (difficulty : Int) (miningDuration : Int) : Int :=
  if miningDuration < 10 * Millisecond then wrapInt64 (difficulty + 1)
  else if miningDuration > 5 * Second ∧ difficulty > 1 then wrapInt64 (difficulty - 1)
  else difficulty

/-- Where a mining goroutine stands. -/
inductive Pc
  /-- About to evaluate the loop condition `!found`. -/
  | loopHead
  /-- In the loop body, about to draw a nonce and hash the private copy. -/
  | body
  /-- Holding a qualifying `hash`, about to lock the mutex. -/
  | claim (hash : String)
  /-- Returned (`wg.Done` has run). -/
  | done
  deriving DecidableEq

/-- A mining goroutine: its program point and its private copy of the block. -/
structure Worker where
  pc : Pc
  localBlock : Block
  deriving DecidableEq

/-- The variables shared by the goroutines of one ProofOfWork call. -/
structure Seal where
  found : Bool
  validHash : String
  validNonce : Int
  workers : List Worker
  deriving DecidableEq

/-- One scheduling decision: goroutine `worker` runs its next atomic step;
`rnd` is what `rand.Int()` yields if that step draws a nonce. -/
structure Event where
  worker : Nat
  rnd : Nat
  deriving DecidableEq

/-- The next atomic step of worker `w`, which sits at position `i`.  The result
is `none` when `strings.Repeat` panics on a negative difficulty. -/
def stepWorker (difficulty : Int) (s : Seal) (i : Nat) (rnd : Nat) (w : Worker) : Option Seal :=
  match w.pc with
  | .loopHead =>
    if !s.found then some { s with workers := s.workers.set i { w with pc := .body } }
    else some { s with workers := s.workers.set i { w with pc := .done } }
  | .body =>
    let localBlock := { w.localBlock with Nonce := (rnd % 9223372036854775808 : Nat) }
    let hash := CalculateHash localBlock
    match Repeat "0" difficulty with
    | none => none
    | some zeros =>
      if HasPrefix hash zeros then
        some { s with workers := s.workers.set i { pc := .claim hash, localBlock := localBlock } }
      else
        some { s with workers := s.workers.set i { pc := .loopHead, localBlock := localBlock } }
  | .claim hash =>
    if !s.found then
      some { found := true, validHash := hash, validNonce := w.localBlock.Nonce,
             workers := s.workers.set i { w with pc := .done } }
    else some { s with workers := s.workers.set i { w with pc := .done } }
  | .done => some s

/-- One scheduling decision applied to the shared state; an event naming no
goroutine changes nothing. -/
def step (difficulty : Int) (s : Seal) (e : Event) : Option Seal :=
  match s.workers.get? e.worker with
  | none => some s
  | some w => stepWorker difficulty s e.worker e.rnd w

/-- A whole schedule applied to the shared state. -/
def run (difficulty : Int) : Seal → List Event → Option Seal
  | s, [] => some s
  | s, e :: es =>
    match step difficulty s e with
    | none => none
    | some s' => run difficulty s' es

/-- What one ProofOfWork call observes of its environment. -/
structure SealEnv where
  /-- The value of `runtime.NumCPU()`. -/
  numCPU : Nat
  /-- The interleaving of the goroutines and the nonces they draw. -/
  schedule : List Event
  /-- The value of `time.Since(miningStartTime)` after the join. -/
  elapsed : Int
  deriving DecidableEq

/-- The outcome of a ProofOfWork call that returned. -/
structure SealResult where
  /-- The block `*b` after the call. -/
  block : Block
  /-- The returned string. -/
  ret : String
  /-- The package variable `difficulty` after the call. -/
  difficulty : Int
  deriving DecidableEq

/-- The shared state when the goroutines have been spawned. -/
def initSeal (numThreads : Nat) (b : Block) : Seal :=
  { found := false, validHash := "", validNonce := 0,
    workers := List.replicate numThreads { pc := .loopHead, localBlock := b } }

/-- ProofOfWork performs the Proof of Work algorithm using multi-threading.
The result is `none` when the call does not return under the given schedule:
some goroutine is still searching when the schedule ends (`wg.Wait` blocks), or
a goroutine panicked. -/
def ProofOfWork (env : SealEnv) (difficulty : Int) (b : Block) : Option SealResult :=
  match run difficulty (initSeal env.numCPU b) env.schedule with
  | none => none
  | some s =>
    if s.workers.all (fun w => w.pc == .done) then
      some { block := { b with Hash := s.validHash, Nonce := s.validNonce },
             ret := s.validHash,
             difficulty := adjustDifficulty difficulty env.elapsed }
    else none

/-- ValidateProofOfWork checks if a block's hash meets the difficulty requirement. -/
def ValidateProofOfWork (difficulty : Int) (b : Block) : Option Bool :=
  match Repeat "0" difficulty with
  | none => none
  | some zeros => some (HasPrefix b.Hash zeros)

/-! ## Package network -/

/-- Fixed command length. -/
def commandLength : Nat := 12

/-- The loop `for i, c := range cmd` of CmdToBytes: `i` is the byte offset of
the code point `c` in the string, and `byte(c)` keeps its low eight bits. -/
def CmdToBytes.loop : List Char → Nat → List Nat → List Nat
  | [], _, bytes => bytes
  | c :: rest, i, bytes =>
    if i < commandLength then
      CmdToBytes.loop rest (i + (utf8Char c).length) (bytes.set i (c.toNat % 256))
    else bytes

/-- CmdToBytes converts a command to bytes. -/
def CmdToBytes (cmd : String) : List Nat :=
  CmdToBytes.loop cmd.data 0 (List.replicate commandLength 0)

/-- The loop of BytesToCmd, with the bytes appended to `cmd` so far. -/
def BytesToCmd.loop : List Nat → List Nat → List Nat
  | [], cmd => cmd
  | b :: rest, cmd => if b != 0 then BytesToCmd.loop rest (cmd ++ [b]) else cmd

/-- BytesToCmd converts bytes to a command; the string it returns is given by
its bytes. -/
def BytesToCmd (bytes : List Nat) : List Nat := BytesToCmd.loop bytes []

/-- NodeIsKnown checks if a node is already known. -/
def NodeIsKnown : List String → String → Bool
  | [], _ => false
  | node :: rest, addr => if node == addr then true else NodeIsKnown rest addr

/-- The first loop of HandleAddr, over `nodes.AddrList`, acting on `KnownNodes`. -/
def HandleAddr.merge : List String → List String → List String
  | KnownNodes, [] => KnownNodes
  | KnownNodes, node :: rest =>
    if !NodeIsKnown KnownNodes node && node != "" then HandleAddr.merge (KnownNodes ++ [node]) rest
    else HandleAddr.merge KnownNodes rest

/-- The second loop of HandleAddr: the peers `SendAddr` is called on. -/
def HandleAddr.share (KnownNodes AddrList : List String) : List String :=
  match AddrList with
  | [] => []
  | first :: _ => KnownNodes.filter fun node => node != first

/-- HandleAddr processes a list of node addresses; `decoded` is the outcome of
the gob decoding of the payload.  The result is the new `KnownNodes` and the
peers the updated list is sent to. -/
def HandleAddr (KnownNodes : List String) (decoded : Except String (List String)) :
    List String × List String :=
  match decoded with
  | .error _ => (KnownNodes, [])
  | .ok AddrList =>
    let known := HandleAddr.merge KnownNodes AddrList
    (known, HandleAddr.share known AddrList)

/-- The function handleBlock processes and validates a block; `decoded` is the
outcome of the gob decoding of the payload.  The result is the chain
`*blockchain` after the call. -/
def handleBlock (decoded : Except String Block) (blockchain : Blockchain) : Blockchain :=
  match decoded with
  | .error _ => blockchain
  | .ok newBlock =>
    if !ValidateBlock newBlock then blockchain
    else
      match blockchain.getLast? with
      | some last =>
        if newBlock.PrevHash != last.Hash then blockchain
        else blockchain ++ [newBlock]
      | none => blockchain ++ [newBlock]

/-- Room holds a blockchain state for a room. -/
structure Room where
  RoomID : String
  Blockchain : Blockchain
  deriving DecidableEq

/-- The function handleRoom processes and saves a room's blockchain; a failed
save is only logged. -/
def handleRoom (decoded : Except String Room) (fs : FileSystem) : FileSystem :=
  match decoded with
  | .error _ => fs
  | .ok room =>
    let filename := "./ledgers/blockchain-" ++ room.RoomID ++ ".json"
    match SaveBlockchain fs filename room.Blockchain with
    | .error _ => fs
    | .ok fs' => fs'

/-- The gob decoders of the three payload types. -/
structure Gob where
  decodeAddr : List Nat → Except String (List String)
  decodeBlock : List Nat → Except String Block
  decodeRoom : List Nat → Except String Room

/-- The state a connection handler acts on. -/
structure Node where
  KnownNodes : List String
  blockchain : Blockchain
  fs : FileSystem

/-- The branches of the `switch command` of HandleConnection. -/
inductive Route
  | addr
  | block
  | room
  | unknown
  deriving DecidableEq

/-- The `switch command` of HandleConnection. -/
def dispatch (command : List Nat) : Route :=
  if command == utf8 "addr" then .addr
  else if command == utf8 "block" then .block
  else if command == utf8 "room" then .room
  else .unknown

/-- HandleConnection routes incoming data; `read` is the outcome of
`conn.Read` into the 4096-byte buffer. -/
def HandleConnection (gob : Gob) (node : Node) (read : Except String (List Nat)) : Node :=
  match read with
  | .error _ => node
  | .ok data =>
    let request := (data ++ List.replicate (4096 - data.length) 0).take 4096
    let command := BytesToCmd (request.take commandLength)
    let payload := request.drop commandLength
    match dispatch command with
    | .addr => { node with KnownNodes := (HandleAddr node.KnownNodes (gob.decodeAddr payload)).1 }
    | .block => { node with blockchain := handleBlock (gob.decodeBlock payload) node.blockchain }
    | .room => { node with fs := handleRoom (gob.decodeRoom payload) node.fs }
    | .unknown => node

/-! ## Command voting-node -/

/-- The outcome of a loadBlockchain call that returned. -/
structure LoadResult where
  /-- The returned chain, or the returned error. -/
  result : Except String Blockchain
  /-- The file system after the call. -/
  fs : FileSystem
  /-- The package variable `consensus.difficulty` after the call. -/
  difficulty : Int

/-- The two branches of loadBlockchain that create a new blockchain with a
genesis block; `now` is the reading of the clock in NewBlock. -/
def loadBlockchain.fresh (fs : FileSystem) (difficulty : Int) (now : Int) (env : SealEnv)
    (filename : String) : Option LoadResult :=
  let genesisBlock := CreateGenesisBlock now
  match ProofOfWork env difficulty genesisBlock with
  | none => none
  | some r =>
    let genesisBlock := { r.block with Hash := r.ret }
    let blockchain := [genesisBlock]
    match SaveBlockchain fs filename blockchain with
    | .error err => some { result := .error err, fs := fs, difficulty := r.difficulty }
    | .ok fs' => some { result := .ok blockchain, fs := fs', difficulty := r.difficulty }

/-- Load blockchain from a specific ledger file.  The result is `none` when
the ProofOfWork call inside does not return. -/
def loadBlockchain (fs : FileSystem) (difficulty : Int) (now : Int) (env : SealEnv)
    (filename : String) : Option LoadResult :=
  match ReadFile fs filename with
  | .error err =>
    if err == "open " ++ filename ++ ": no such file or directory" then
      loadBlockchain.fresh fs difficulty now env filename
    else some { result := .error err, fs := fs, difficulty := difficulty }
  | .ok file =>
    if file = .empty then
      loadBlockchain.fresh fs difficulty now env filename
    else
      match Unmarshal file with
      | .error err => some { result := .error err, fs := fs, difficulty := difficulty }
      | .ok blockchain =>
        if !ValidateBlockchain blockchain then
          some { result := .error "blockchain is invalid or tampered with", fs := fs,
                 difficulty := difficulty }
        else some { result := .ok blockchain, fs := fs, difficulty := difficulty }

/-! ## Properties stated about the code -/

/-- A hash starts with at least `difficulty` characters '0'. -/
def Qualifies (difficulty : Int) (hash : String) : Prop :=
  0 ≤ difficulty ∧ List.replicate difficulty.toNat '0' <+: hash.data

/-- What holds of the shared state throughout one ProofOfWork call on `b`:
every private copy is `b` up to its nonce; a hash about to be claimed is the
hash of its worker's copy and qualifies; once `found` is set, the recorded hash
is the hash of `b` with the recorded nonce and qualifies; and a goroutine has
returned only if `found` is set. -/
def SealInv (difficulty : Int) (b : Block) (s : Seal) : Prop :=
  (∀ w ∈ s.workers, w.localBlock = { b with Nonce := w.localBlock.Nonce }) ∧
  (∀ w ∈ s.workers, ∀ h, w.pc = .claim h →
    h = CalculateHash w.localBlock ∧ Qualifies difficulty h) ∧
  (s.found = true →
    s.validHash = CalculateHash { b with Nonce := s.validNonce } ∧
      Qualifies difficulty s.validHash) ∧
  ((∃ w ∈ s.workers, w.pc = .done) → s.found = true)

/-- Each element of a list once, in the order of first occurrence; `seen`
holds the elements already met. -/
def firstOccurrences.go : List String → List String → List String
  | _, [] => []
  | seen, a :: rest =>
    if a ∈ seen then firstOccurrences.go seen rest
    else a :: firstOccurrences.go (a :: seen) rest

/-- Each element of a list once, in the order of first occurrence. -/
def firstOccurrences (l : List String) : List String := firstOccurrences.go [] l

/-- The peer set the specification asks for after an `addr` message: the set
`K`, followed by the addresses of `L` that are non-empty and not in `K`, each
once, in the order of first occurrence. -/
def mergedPeers (K L : List String) : List String :=
  K ++ firstOccurrences (L.filter fun a => decide (a ≠ "" ∧ a ∉ K))

/-- The package variable `difficulty` after a sequence of ProofOfWork calls,
one at a time, each with its own environment and candidate block; `none` when
one of the calls does not return. -/
def difficultyAfter : Int → List (SealEnv × Block) → Option Int
  | difficulty, [] => some difficulty
  | difficulty, (env, b) :: rest =>
    match ProofOfWork env difficulty b with
    | none => none
    | some r => difficultyAfter r.difficulty rest

/-- A value the package variable `difficulty` can hold: its value after some
sequence of ProofOfWork calls that returned, one at a time, starting from the
initial value, each call having started at least one goroutine.  Nothing but
adjustDifficulty, called at the end of ProofOfWork, writes the variable. -/
def ReachableDifficulty (k : Int) : Prop :=
  ∃ seals : List (SealEnv × Block), (∀ e ∈ seals, 0 < e.1.numCPU) ∧
    difficultyAfter initialDifficulty seals = some k

/-- The schedule in which goroutine 0 enters the loop, draws `nonce`, and
claims the result, after which every goroutine is given one step. -/
def winningSchedule (numThreads nonce : Nat) : List Event :=
  [⟨0, 0⟩, ⟨0, nonce⟩, ⟨0, 0⟩] ++ (List.range numThreads).map fun i => (⟨i, 0⟩ : Event)

/-! ## Example data -/

/-- A genesis block sealed at difficulty 3. -/
def exGenesis : Block :=
  { Index := 0, Timestamp := 1700000000, Data := { BallotID := "genesis", ChoiceID := "genesis" },
    PrevHash := "0",
    Hash := "000bd19299720e88c8be9edd6a85216411376ab68170b0ffff6198155917c974",
    Nonce := 1852 }

/-- The sealed genesis block with its payload replaced afterwards. -/
def exTampered : Block :=
  { exGenesis with Data := { BallotID := "ballot-1", ChoiceID := "alice" } }

/-- A sealed block that extends the genesis block. -/
def exB1 : Block :=
  { Index := 1, Timestamp := 1700000060, Data := { BallotID := "ballot-1", ChoiceID := "bob" },
    PrevHash := "000bd19299720e88c8be9edd6a85216411376ab68170b0ffff6198155917c974",
    Hash := "0002de983e0da03438e280af274825707d568a805047e7664686468cef25cfa3",
    Nonce := 7394 }

/-- The candidate genesis block that NewBlock returns at time 1700000000. -/
def exCandidate : Block := CreateGenesisBlock 1700000000

/-- Two goroutines: the second tries nonce 0 and fails, the first draws nonce
1852, claims the result, and the second then sees `found` and returns.  The
search took 42 ms. -/
def exEnv : SealEnv :=
  { numCPU := 2,
    schedule := [⟨0, 0⟩, ⟨1, 0⟩, ⟨1, 0⟩, ⟨0, 1852⟩, ⟨0, 0⟩, ⟨1, 0⟩],
    elapsed := 42000000 }

/-- The outcome of sealing `exCandidate` under `exEnv` at difficulty 3. -/
def exSealed : SealResult :=
  { block := exGenesis, ret := exGenesis.Hash, difficulty := 3 }

/-- The ledger file used in the examples. -/
def exLedger : String := "ledgers/blockchain-1.json"

/-- A file system without any file, in which the ledger can be created. -/
def exNoFile : FileSystem :=
  { files := fun _ => none, readError := fun _ => none, writeError := fun _ => none }

/-- A file system in which the ledger exists with zero bytes. -/
def exEmptyFile : FileSystem :=
  { files := fun name => if name = exLedger then some .empty else none,
    readError := fun _ => none, writeError := fun _ => none }

/-- A file system without any file and without the directory `ledgers`, so
that the ledger cannot be created. -/
def exNoDir : FileSystem :=
  { files := fun _ => none, readError := fun _ => none,
    writeError := fun name => some ("open " ++ name ++ ": no such file or directory") }

/-! ## Package transaction -/

/-- Transaction represents a basic transaction structure. -/
structure Transaction where
  Data : String
  Timestamp : Int
  Signature : String
  deriving DecidableEq

/-! ## Package smartcontract -/

/-- VotingSmartContract represents a basic voting contract.  The map `Votes`
is given by its lookup: `none` for a key that is not in the map. -/
structure VotingSmartContract where
  Candidates : List String
  Votes : String → Option Int

/-- NewVotingSmartContract creates a new voting contract; `make(map[string]int)`
is the map without any key. -/
def NewVotingSmartContract (candidates : List String) : VotingSmartContract :=
  { Candidates := candidates, Votes := fun _ => none }

/-- CastVote casts a vote for a candidate if the candidate exists.  The result
is the returned error (`none` for nil) and the contract after the call. -/
def VotingSmartContract.CastVote (vsc : VotingSmartContract) (t : Transaction) :
    Option String × VotingSmartContract :=
  match vsc.Votes t.Data with
  | some n =>
    (none, { vsc with Votes := Function.update vsc.Votes t.Data (some (wrapInt64 (n + 1))) })
  | none => (some "candidate does not exist", vsc)

/-- GetResults returns the vote count for each candidate. -/
def VotingSmartContract.GetResults (vsc : VotingSmartContract) : String → Option Int :=
  vsc.Votes

/-- The count a result map reports for a candidate: indexing a Go map yields
the zero value for a key that is not in it. -/
def countOf (results : String → Option Int) (candidate : String) : Int :=
  (results candidate).getD 0

/-! ## Package network: discovery -/

/-- One pass of the loop of udpReceiver: a datagram `data` has arrived from
`remoteIP`; `port` is the serving port the node was started with.  The result
is `KnownNodes` after the pass. -/
def udpReceiver.receive (port : String) (KnownNodes : List String) (remoteIP : String)
    (data : List Nat) : List String :=
  if data == [0] then
    let nodeAddr := remoteIP ++ ":" ++ port
    if !NodeIsKnown KnownNodes nodeAddr then KnownNodes ++ [nodeAddr] else KnownNodes
  else KnownNodes

/-! ## Command voting-node: casting and broadcasting -/

/-- The value startServer gives the variable `nodeAddress` of the command:
the local IP with the serving port. -/
def startServer.nodeAddress (localIP port : String) : String := localIP ++ ":" ++ port

/-- The peers broadcastBlock calls `network.SendBlock` on, in order. -/
def broadcastBlock (peers : List String) (nodeAddress : String) : List String :=
  peers.filter fun peer => peer != nodeAddress

/-- The peers broadcastAddr calls `network.SendAddr` on, in order. -/
def broadcastAddr (KnownNodes : List String) (nodeAddress : String) : List String :=
  KnownNodes.filter fun peer => peer != nodeAddress

/-- Save the blockchain to a specific ledger file. -/
def saveBlockchain (fs : FileSystem) (filename : String) (blockchain : Blockchain) :
    Except String FileSystem :=
  WriteFile fs filename (.json blockchain)

/-- How a call of castVote ends. -/
inductive CastVoteOutcome
  /-- The message "Error loading blockchain" was printed. -/
  | loadError (err : String)
  /-- The index expression `blockchain[len(blockchain)-1]` was out of range:
  a run-time panic. -/
  | panicked
  /-- The message "New block is invalid. Vote not casted." was printed. -/
  | invalidBlock
  /-- The message "Blockchain is invalid or tampered with. Vote not casted."
  was printed. -/
  | invalidChain
  /-- The message "Error saving blockchain" was printed. -/
  | saveError (err : String)
  /-- The message "Vote casted successfully!" was printed. -/
  | casted (newBlock : Block)
  deriving DecidableEq

/-- The outcome of a castVote call that came to an end. -/
structure CastVoteResult where
  outcome : CastVoteOutcome
  fs : FileSystem
  difficulty : Int

/-- Create a new block and add it to the blockchain.  The clock and the
proof-of-work environment are read twice: inside loadBlockchain (`nowLoad`,
`envLoad`) and for the new block (`now`, `env`).  The result is `none` when a
ProofOfWork call does not return. -/
def castVote (fs : FileSystem) (difficulty : Int) (nowLoad : Int) (envLoad : SealEnv)
    (now : Int) (env : SealEnv) (filename ballotID choiceID : String) :
    Option CastVoteResult :=
  match loadBlockchain fs difficulty nowLoad envLoad filename with
  | none => none
  | some loaded =>
    match loaded.result with
    | .error err =>
      some { outcome := .loadError err, fs := loaded.fs, difficulty := loaded.difficulty }
    | .ok blockchain =>
      match blockchain.getLast? with
      | none => some { outcome := .panicked, fs := loaded.fs, difficulty := loaded.difficulty }
      | some lastBlock =>
        let newBlock : Block :=
          { Index := wrapInt64 (lastBlock.Index + 1), Timestamp := now,
            Data := { BallotID := ballotID, ChoiceID := choiceID },
            PrevHash := lastBlock.Hash, Hash := "", Nonce := 0 }
        match ProofOfWork env loaded.difficulty newBlock with
        | none => none
        | some r =>
          let newBlock := { r.block with Hash := r.ret }
          if !ValidateBlock newBlock then
            some { outcome := .invalidBlock, fs := loaded.fs, difficulty := r.difficulty }
          else
            let blockchain := blockchain ++ [newBlock]
            if !ValidateBlockchain blockchain then
              some { outcome := .invalidChain, fs := loaded.fs, difficulty := r.difficulty }
            else
              match saveBlockchain loaded.fs filename blockchain with
              | .error err =>
                some { outcome := .saveError err, fs := loaded.fs, difficulty := r.difficulty }
              | .ok fs' =>
                some { outcome := .casted newBlock, fs := fs', difficulty := r.difficulty }

/-! ## Package storage -/

/-- Room represents a voting room. -/
structure storage.Room where
  ID : String
  Name : String
  Description : String
  /-- The field `Type` of the source: "public" or "private". -/
  RoomType : String
  Participants : List String
  PendingRequests : List String
  deriving DecidableEq

/-- Create a new room; `uuid` is the identifier `uuid.New()` yields.  The
result is the room and the map of the store after the call. -/
def storage.CreateRoom (rooms : String → Option storage.Room) (uuid name description
    roomType : String) : storage.Room × (String → Option storage.Room) :=
  let room : storage.Room :=
    { ID := uuid, Name := name, Description := description, RoomType := roomType,
      Participants := [], PendingRequests := [] }
  (room, Function.update rooms room.ID (some room))

/-! ## Command api -/

/-- The variable `nodeAddress` of package api ("Define the current node's
address"); nothing assigns to it. -/
def api.nodeAddress : String := "http://localhost:8080"

/-- Validate a specific ledger: the returned error, `none` for nil. -/
def validateLedger (fs : FileSystem) (filename : String) : Option String :=
  match LoadBlockchain fs filename with
  | .error err => some ("failed to load blockchain from " ++ filename ++ ": " ++ err)
  | .ok blockchain =>
    if !ValidateBlockchain blockchain then
      some ("blockchain in " ++ filename ++ " is invalid or tampered with")
    else none

/-- What a handler leaves on the connection. -/
inductive Reply
  /-- The call `http.Error(w, msg, status)`. -/
  | httpError (msg : String) (status : Nat)
  /-- The JSON encoding of a block, status 200. -/
  | block (b : Block)
  /-- The JSON encoding of a room, status 200. -/
  | room (r : storage.Room)
  /-- A run-time panic in the handler (index out of range); the server
  recovers it and closes the connection. -/
  | panicked
  deriving DecidableEq

/-- The outcome of a handler call that came to an end. -/
structure Handled where
  reply : Reply
  fs : FileSystem
  /-- The package variable `consensus.difficulty` after the call. -/
  difficulty : Int
  /-- The peers a message was sent to, in order. -/
  sent : List String

/-- The request body of castVoteHandler. -/
structure VoteRequest where
  RoomID : String
  BallotID : String
  UserID : String
  ChoiceID : String
  deriving DecidableEq

/-- The peers the block broadcast of castVoteHandler calls `network.SendBlock`
on, and the room broadcast of createRoomHandler calls `network.SendRoom` on. -/
def api.broadcast (KnownNodes : List String) : List String :=
  KnownNodes.filter fun peer => peer != api.nodeAddress

/-- Cast a vote in a ballot; `decoded` is the outcome of decoding the request
body.  The result is `none` when the ProofOfWork call does not return. -/
def castVoteHandler (decoded : Except String VoteRequest) (KnownNodes : List String)
    (fs : FileSystem) (difficulty : Int) (now : Int) (env : SealEnv) : Option Handled :=
  match decoded with
  | .error _ =>
    some { reply := .httpError "Invalid request body" 400, fs := fs, difficulty := difficulty,
           sent := [] }
  | .ok req =>
    let filename := "./ledgers/blockchain-" ++ req.RoomID ++ ".json"
    match LoadBlockchain fs filename with
    | .error _ =>
      some { reply := .httpError "Failed to load blockchain" 500, fs := fs,
             difficulty := difficulty, sent := [] }
    | .ok blockchain =>
      match validateLedger fs filename with
      | some err =>
        some { reply := .httpError err 500, fs := fs, difficulty := difficulty, sent := [] }
      | none =>
        match blockchain.getLast? with
        | none => some { reply := .panicked, fs := fs, difficulty := difficulty, sent := [] }
        | some lastBlock =>
          let newBlock : Block :=
            { Index := wrapInt64 (lastBlock.Index + 1), Timestamp := now,
              Data := { BallotID := req.BallotID, ChoiceID := req.ChoiceID },
              PrevHash := lastBlock.Hash, Hash := "", Nonce := 0 }
          match ProofOfWork env difficulty newBlock with
          | none => none
          | some r =>
            let newBlock := { r.block with Hash := r.ret }
            if !ValidateBlock newBlock then
              some { reply := .httpError "New block is invalid. Vote not casted." 400, fs := fs,
                     difficulty := r.difficulty, sent := [] }
            else
              match SaveBlockchain fs filename (blockchain ++ [newBlock]) with
              | .error _ =>
                some { reply := .httpError "Failed to save blockchain" 500, fs := fs,
                       difficulty := r.difficulty, sent := [] }
              | .ok fs' =>
                some { reply := .block newBlock, fs := fs', difficulty := r.difficulty,
                       sent := api.broadcast KnownNodes }

/-- The request body of createRoomHandler. -/
structure RoomRequest where
  RoomID : String
  Name : String
  Description : String
  /-- The field `Type` of the source. -/
  RoomType : String
  deriving DecidableEq

/-- Create a new room; `decoded` is the outcome of decoding the request body,
`uuid` the identifier the store draws, and `mkdirError` the error of
`os.Mkdir` when the directory `ledgers` is missing and cannot be created
(`none` when it exists or is created).  The result, `none` when the
ProofOfWork call does not return, is the outcome and the map of the room store
after the call. -/
def createRoomHandler (decoded : Except String RoomRequest) (uuid : String)
    (mkdirError : Option String) (rooms : String → Option storage.Room)
    (KnownNodes : List String) (fs : FileSystem) (difficulty : Int) (now : Int)
    (env : SealEnv) : Option (Handled × (String → Option storage.Room)) :=
  match decoded with
  | .error _ =>
    some ({ reply := .httpError "Invalid request body" 400, fs := fs, difficulty := difficulty,
            sent := [] }, rooms)
  | .ok req =>
    let (room, rooms') := storage.CreateRoom rooms uuid req.Name req.Description req.RoomType
    match mkdirError with
    | some _ =>
      some ({ reply := .httpError "Failed to create ledgers directory" 500, fs := fs,
              difficulty := difficulty, sent := [] }, rooms')
    | none =>
      let filename := "./ledgers/blockchain-" ++ req.RoomID ++ ".json"
      let genesisBlock := CreateGenesisBlock now
      match ProofOfWork env difficulty genesisBlock with
      | none => none
      | some r =>
        let genesisBlock := { r.block with Hash := r.ret }
        let blockchain := [genesisBlock]
        match SaveBlockchain fs filename blockchain with
        | .error _ =>
          some ({ reply := .httpError "Failed to initialize blockchain" 500, fs := fs,
                  difficulty := r.difficulty, sent := [] }, rooms')
        | .ok fs' =>
          some ({ reply := .room room, fs := fs', difficulty := r.difficulty,
                  sent := api.broadcast KnownNodes }, rooms')

/-! ## Further example data -/

/-- A file system in which the ledger holds the JSON text of a sequence
without any block (`[]` or `null`). -/
def exNoBlock : FileSystem :=
  { files := fun name => if name = exLedger then some (.json []) else none,
    readError := fun _ => none, writeError := fun _ => none }

/-- A file system in which the ledger of room "1" holds the JSON text of a
sequence without any block. -/
def exRoomNoBlock : FileSystem :=
  { files := fun name =>
      if name = "./ledgers/blockchain-1.json" then some (.json []) else none,
    readError := fun _ => none, writeError := fun _ => none }

/-- A file system in which the ledger of room "1" holds the sealed genesis
block. -/
def exRoomLedger : FileSystem :=
  { files := fun name =>
      if name = "./ledgers/blockchain-1.json" then some (.json [exGenesis]) else none,
    readError := fun _ => none, writeError := fun _ => none }

/-- One goroutine that draws nonce 7394 at once; the search took 42 ms. -/
def exEnvVote : SealEnv :=
  { numCPU := 1, schedule := [⟨0, 0⟩, ⟨0, 7394⟩, ⟨0, 0⟩], elapsed := 42000000 }

/-- A request to vote for "bob" on "ballot-1" in room "1". -/
def exVote : VoteRequest :=
  { RoomID := "1", BallotID := "ballot-1", UserID := "u1", ChoiceID := "bob" }

/-- A request to create room "1". -/
def exRoomRequest : RoomRequest :=
  { RoomID := "1", Name := "board", Description := "board election",
    RoomType := "public" }

/-- The local IP of the node in the examples. -/
def exLocalIP : String := "192.168.1.5"

/-- The peer set after discovery has heard the node's own beacon and the
beacon of one other node, both serving on port 8594. -/
def exPeers : List String :=
  udpReceiver.receive "8594" (udpReceiver.receive "8594" [] exLocalIP [0]) "192.168.1.6" [0]

/-- A block with index 1 and timestamp 23, carrying the hash of its record. -/
def exSplitA : Block :=
  { Index := 1, Timestamp := 23, Data := { BallotID := "ballot-1", ChoiceID := "alice" },
    PrevHash := "000bd19299720e88c8be9edd6a85216411376ab68170b0ffff6198155917c974",
    Hash := "8eb1984edc13f03be2cf1625196300409d8d88c044ea299f6798f6fa86039dfc",
    Nonce := 0 }

/-- The same block with index 12 and timestamp 3. -/
def exSplitB : Block := { exSplitA with Index := 12, Timestamp := 3 }

/-- A block whose ballot is "a b" and whose choice is "c", carrying the hash
of its record. -/
def exSpaceA : Block :=
  { Index := 1, Timestamp := 1700000060, Data := { BallotID := "a b", ChoiceID := "c" },
    PrevHash := "000bd19299720e88c8be9edd6a85216411376ab68170b0ffff6198155917c974",
    Hash := "44d3c82d8c67e492ab3839a86d6d7f3b749285d1004322b65f0e392f2954afd0",
    Nonce := 0 }

/-- The same block with ballot "a" and choice "b c". -/
def exSpaceB : Block := { exSpaceA with Data := { BallotID := "a", ChoiceID := "b c" } }

/-- The search of `exEnv`, found within 5 ms. -/
def exEnvFast : SealEnv := { exEnv with elapsed := 5000000 }

/-! # Theorems -/

/-! ## The ledger model -/

theorem ValidateBlock_iff (b : Block) : ValidateBlock b = true ↔ b.Hash = CalculateHash b := by
  unfold ValidateBlock
  by_cases h : b.Hash = CalculateHash b <;> simp [h]

theorem record_setHash (b : Block) (h : String) : record { b with Hash := h } = record b := rfl

theorem CalculateHash_setHash (b : Block) (h : String) :
    CalculateHash { b with Hash := h } = CalculateHash b := rfl

theorem ValidateBlockchain.loop_iff (chain : Blockchain) (todo i : Nat) :
    ValidateBlockchain.loop chain todo i = true ↔
      ∀ j, i ≤ j → j < i + todo → ∀ cur prev, chain.get? j = some cur →
        chain.get? (j - 1) = some prev → ValidateBlock cur = true ∧ cur.PrevHash = prev.Hash := by
  induction todo generalizing i with
  | zero =>
    simp only [ValidateBlockchain.loop, true_iff]
    intro j h1 h2
    omega
  | succ n ih =>
    unfold ValidateBlockchain.loop
    cases hc : chain.get? i with
    | none =>
      simp only [true_iff]
      intro j h1 _ cur prev hj _
      have hlen : chain.length ≤ i := List.get?_eq_none.mp hc
      have : chain.get? j = none := List.get?_eq_none.mpr (by omega)
      rw [this] at hj
      cases hj
    | some cur =>
      cases hp : chain.get? (i - 1) with
      | none =>
        exfalso
        have hlen : chain.length ≤ i - 1 := List.get?_eq_none.mp hp
        have : chain.get? i = none := List.get?_eq_none.mpr (by omega)
        rw [this] at hc
        cases hc
      | some prev =>
        simp only
        by_cases hv : ValidateBlock cur = true
        · by_cases hl : cur.PrevHash = prev.Hash
          · simp only [hv, hl, Bool.not_true, bne_self_eq_false, Bool.false_eq_true, if_false]
            rw [ih (i + 1)]
            constructor
            · intro h j h1 h2 c p hjc hjp
              rcases Nat.eq_or_lt_of_le h1 with heq | hlt
              · subst heq
                rw [hc] at hjc
                rw [hp] at hjp
                cases hjc
                cases hjp
                exact ⟨hv, hl⟩
              · exact h j hlt (by omega) c p hjc hjp
            · intro h j h1 h2 c p hjc hjp
              exact h j (by omega) (by omega) c p hjc hjp
          · have hl2 : (cur.PrevHash != prev.Hash) = true := by simpa using hl
            simp only [hv, hl2, Bool.not_true, Bool.false_eq_true, if_false, if_true, false_iff]
            intro h
            exact hl (h i le_rfl (by omega) cur prev hc hp).2
        · have hv2 : (!ValidateBlock cur) = true := by simpa using hv
          simp only [hv2, if_true, Bool.false_eq_true, false_iff]
          intro h
          exact hv (h i le_rfl (by omega) cur prev hc hp).1

theorem ValidateBlockchain_iff (chain : Blockchain) :
    ValidateBlockchain chain = true ↔
      ∀ i (h1 : 1 ≤ i) (h : i < chain.length),
        ValidateBlock (chain.get ⟨i, h⟩) = true ∧
        (chain.get ⟨i, h⟩).PrevHash = (chain.get ⟨i - 1, by omega⟩).Hash := by
  unfold ValidateBlockchain
  rw [ValidateBlockchain.loop_iff]
  constructor
  · intro H i h1 h
    exact H i h1 (by omega) _ _ (List.get?_eq_get h) (List.get?_eq_get (by omega))
  · intro H j h1 h2 cur prev hc hp
    have hj : j < chain.length := by omega
    have e1 := List.get?_eq_get hj
    have e2 := List.get?_eq_get (show j - 1 < chain.length by omega)
    rw [e1] at hc
    rw [e2] at hp
    cases hc
    cases hp
    exact H j h1 hj

/-- C2: ValidateBlockchain is the conjunction, over the positions i from 1 to
len(chain)-1, of ValidateBlock(chain[i]) and chain[i].PrevHash == chain[i-1].Hash;
a chain of length 0 or 1 is accepted whatever it contains; and when a position
i fails either test the loop has returned false after at most i iterations,
that is, without looking at any later block. -/
theorem ValidateBlockchain_conjunction (chain : Blockchain) :
    (ValidateBlockchain chain = true ↔
      ∀ i (h1 : 1 ≤ i) (h : i < chain.length),
        ValidateBlock (chain.get ⟨i, h⟩) = true ∧
        (chain.get ⟨i, h⟩).PrevHash = (chain.get ⟨i - 1, by omega⟩).Hash) ∧
    (chain.length ≤ 1 → ValidateBlockchain chain = true) ∧
    (∀ i (h1 : 1 ≤ i) (h : i < chain.length),
      (ValidateBlock (chain.get ⟨i, h⟩) = false ∨
        (chain.get ⟨i, h⟩).PrevHash ≠ (chain.get ⟨i - 1, by omega⟩).Hash) →
      ValidateBlockchain.loop chain i 1 = false ∧ ValidateBlockchain chain = false) := by
  refine ⟨ValidateBlockchain_iff chain, ?_, ?_⟩
  · intro hlen
    rw [ValidateBlockchain_iff]
    intro i h1 h
    omega
  · intro i h1 h hbad
    have key : ¬ (ValidateBlock (chain.get ⟨i, h⟩) = true ∧
        (chain.get ⟨i, h⟩).PrevHash = (chain.get ⟨i - 1, by omega⟩).Hash) := by
      rintro ⟨hv, hl⟩
      rcases hbad with hb | hb
      · rw [hv] at hb
        cases hb
      · exact hb hl
    constructor
    · rw [← Bool.not_eq_true, ValidateBlockchain.loop_iff]
      intro H
      exact key (H i h1 (by omega) _ _ (List.get?_eq_get h) (List.get?_eq_get (by omega)))
    · rw [← Bool.not_eq_true, ValidateBlockchain_iff]
      intro H
      exact key (H i h1 h)

/-- Witness for C2: a one-block chain is accepted although its block does not
validate, and a chain whose block at position 1 does not link is rejected after
one iteration. -/
theorem ValidateBlockchain_conjunction_witness :
    ValidateBlockchain [exTampered] = true ∧
    ValidateBlockchain.loop [exGenesis, exGenesis, exB1] 1 1 = false :=
  ⟨(ValidateBlockchain_conjunction [exTampered]).2.1 (by decide),
   ((ValidateBlockchain_conjunction [exGenesis, exGenesis, exB1]).2.2 1 (by decide) (by decide)
      (Or.inr (by decide))).1⟩

set_option maxRecDepth 100000 in
/-- C1: ValidateBlockchain never recomputes the hash of the block at index 0.
The sealed genesis block whose payload was replaced afterwards fails
ValidateBlock, yet the one-block chain holding it, and the two-block chain in
which a sealed block follows it, both pass ValidateBlockchain. -/
theorem ValidateBlockchain_skips_genesis :
    ValidateBlock exGenesis = true ∧
    ValidateBlock exTampered = false ∧
    exTampered.Hash ≠ CalculateHash exTampered ∧
    ValidateBlockchain [exTampered] = true ∧
    ValidateBlockchain [exTampered, exB1] = true := by
  decide

/-! ## Proof of work -/

theorem flatten_replicate_singleton (n : Nat) (c : Char) :
    (List.replicate n [c]).flatten = List.replicate n c := by
  induction n with
  | zero => rfl
  | succ n ih => simp [List.replicate_succ, ih]

theorem Qualifies_of_HasPrefix {difficulty : Int} {zeros hash : String}
    (hz : Repeat "0" difficulty = some zeros) (hp : HasPrefix hash zeros = true) :
    Qualifies difficulty hash := by
  unfold Repeat at hz
  split at hz
  · cases hz
  · rename_i hneg
    cases hz
    refine ⟨by omega, ?_⟩
    have := List.isPrefixOf_iff_prefix.mp hp
    simpa [flatten_replicate_singleton] using this

theorem length_fmtHex (bs : List Nat) : (fmtHex bs).data.length = 2 * bs.length := by
  unfold fmtHex
  induction bs with
  | nil => rfl
  | cons b bs ih =>
    simp only [List.flatMap_cons, List.length_append, List.length_cons, List.length_nil] at ih ⊢
    omega

theorem length_Sum256 (msg : List Nat) : (Sha256.Sum256 msg).length = 32 := by
  simp [Sha256.Sum256, Sha256.wordBytes]

theorem length_CalculateHash (b : Block) : (CalculateHash b).data.length = 64 := by
  unfold CalculateHash
  rw [length_fmtHex, length_Sum256]

theorem SealInv_init (difficulty : Int) (n : Nat) (b : Block) :
    SealInv difficulty b (initSeal n b) := by
  refine ⟨?_, ?_, ?_, ?_⟩
  · intro w hw
    rw [List.eq_of_mem_replicate hw]
  · intro w hw h hpc
    rw [List.eq_of_mem_replicate hw] at hpc
    cases hpc
  · intro h
    cases h
  · rintro ⟨w, hw, hpc⟩
    rw [List.eq_of_mem_replicate hw] at hpc
    cases hpc

theorem SealInv_set {difficulty : Int} {b : Block} {s : Seal} {i : Nat} {w' : Worker}
    (inv : SealInv difficulty b s)
    (hb : w'.localBlock = { b with Nonce := w'.localBlock.Nonce })
    (hc : ∀ h, w'.pc = .claim h → h = CalculateHash w'.localBlock ∧ Qualifies difficulty h)
    (hd : w'.pc = .done → s.found = true) :
    SealInv difficulty b { s with workers := s.workers.set i w' } := by
  obtain ⟨i1, i2, i3, i4⟩ := inv
  refine ⟨?_, ?_, i3, ?_⟩
  · intro w hw
    rcases List.mem_or_eq_of_mem_set hw with h | h
    · exact i1 w h
    · rw [h]
      exact hb
  · intro w hw
    rcases List.mem_or_eq_of_mem_set hw with h | h
    · exact i2 w h
    · rw [h]
      exact hc
  · rintro ⟨w, hw, hpc⟩
    rcases List.mem_or_eq_of_mem_set hw with h | h
    · exact i4 ⟨w, h, hpc⟩
    · rw [h] at hpc
      exact hd hpc

theorem SealInv_stepWorker {difficulty : Int} {b : Block} {s s' : Seal} {i rnd : Nat}
    {w : Worker} (inv : SealInv difficulty b s) (hw : w ∈ s.workers)
    (hs : stepWorker difficulty s i rnd w = some s') : SealInv difficulty b s' := by
  have hwb := inv.1 w hw
  unfold stepWorker at hs
  split at hs
  · -- loop head
    split at hs
    · cases hs
      exact SealInv_set inv hwb (by intro h hh; cases hh) (by intro hh; cases hh)
    · rename_i hf
      cases hs
      refine SealInv_set inv hwb (by intro h hh; cases hh) ?_
      intro _
      simpa using hf
  · -- loop body
    simp only at hs
    split at hs
    · cases hs
    · rename_i zeros hz
      have hcopy : ({ w.localBlock with Nonce := ((rnd % 9223372036854775808 : Nat) : Int) } : Block) =
          { b with Nonce := ((rnd % 9223372036854775808 : Nat) : Int) } := by
        rw [hwb]
      split at hs
      · rename_i hp
        cases hs
        refine SealInv_set inv ?_ ?_ (by intro hh; cases hh)
        · exact hcopy
        · intro h hh
          cases hh
          exact ⟨rfl, Qualifies_of_HasPrefix hz hp⟩
      · cases hs
        exact SealInv_set inv hcopy (by intro h hh; cases hh) (by intro hh; cases hh)
  · -- claim
    rename_i hash hpc
    have hq := inv.2.1 w hw hash hpc
    split at hs
    · cases hs
      obtain ⟨i1, i2, _, _⟩ := inv
      refine ⟨?_, ?_, ?_, ?_⟩
      · intro w1 hw1
        rcases List.mem_or_eq_of_mem_set hw1 with h | h
        · exact i1 w1 h
        · rw [h]
          exact hwb
      · intro w1 hw1
        rcases List.mem_or_eq_of_mem_set hw1 with h | h
        · exact i2 w1 h
        · rw [h]
          intro h1 hh
          cases hh
      · intro _
        refine ⟨?_, hq.2⟩
        show hash = CalculateHash { b with Nonce := w.localBlock.Nonce }
        rw [← hwb]
        exact hq.1
      · intro _
        rfl
    · rename_i hf
      cases hs
      refine SealInv_set inv hwb (by intro h hh; cases hh) ?_
      intro _
      simpa using hf
  · cases hs
    exact inv

theorem SealInv_step {difficulty : Int} {b : Block} {s s' : Seal} {e : Event}
    (inv : SealInv difficulty b s) (hs : step difficulty s e = some s') :
    SealInv difficulty b s' := by
  unfold step at hs
  split at hs
  · cases hs
    exact inv
  · rename_i w hw
    exact SealInv_stepWorker inv (List.get?_mem hw) hs

theorem SealInv_run {difficulty : Int} {b : Block} (es : List Event) {s s' : Seal}
    (inv : SealInv difficulty b s) (hs : run difficulty s es = some s') :
    SealInv difficulty b s' := by
  induction es generalizing s with
  | nil =>
    cases hs
    exact inv
  | cons e es ih =>
    unfold run at hs
    split at hs
    · cases hs
    · rename_i s1 h1
      exact ih (SealInv_step inv h1) hs

theorem length_stepWorker {difficulty : Int} {s s' : Seal} {i rnd : Nat} {w : Worker}
    (hs : stepWorker difficulty s i rnd w = some s') : s'.workers.length = s.workers.length := by
  unfold stepWorker at hs
  split at hs
  · split at hs <;> cases hs <;> simp
  · simp only at hs
    split at hs
    · cases hs
    · split at hs <;> cases hs <;> simp
  · split at hs <;> cases hs <;> simp
  · cases hs
    rfl

theorem length_run {difficulty : Int} (es : List Event) {s s' : Seal}
    (hs : run difficulty s es = some s') : s'.workers.length = s.workers.length := by
  induction es generalizing s with
  | nil =>
    cases hs
    rfl
  | cons e es ih =>
    unfold run at hs
    split at hs
    · cases hs
    · rename_i s1 h1
      rw [ih hs]
      unfold step at h1
      split at h1
      · cases h1
        rfl
      · exact length_stepWorker h1

/-- What a returned ProofOfWork call leaves behind, in terms of the final
shared state. -/
theorem ProofOfWork_returns {env : SealEnv} {difficulty : Int} {b : Block} {r : SealResult}
    (hcpu : 0 < env.numCPU) (hret : ProofOfWork env difficulty b = some r) :
    ∃ hash nonce, hash = CalculateHash { b with Nonce := nonce } ∧ Qualifies difficulty hash ∧
      r = { block := { b with Hash := hash, Nonce := nonce }, ret := hash,
            difficulty := adjustDifficulty difficulty env.elapsed } := by
  unfold ProofOfWork at hret
  split at hret
  · cases hret
  · rename_i s hrun
    split at hret
    · rename_i hall
      cases hret
      have inv := SealInv_run env.schedule (SealInv_init difficulty env.numCPU b) hrun
      have hlen := length_run env.schedule hrun
      have hne : s.workers ≠ [] := by
        intro h
        rw [h] at hlen
        simp [initSeal] at hlen
        omega
      obtain ⟨w, ws, hws⟩ := List.exists_cons_of_ne_nil hne
      have hw : w ∈ s.workers := by
        rw [hws]
        exact List.mem_cons_self _ _
      have hdone : w.pc = .done := by
        have := List.all_eq_true.mp hall w hw
        simpa using this
      have hfound := inv.2.2.2 ⟨w, hw, hdone⟩
      obtain ⟨h1, h2⟩ := inv.2.2.1 hfound
      exact ⟨s.validHash, s.validNonce, h1, h2, rfl⟩
    · cases hret

/-- C3: when ProofOfWork returns (at least one goroutine having been started,
as `runtime.NumCPU()` is at least 1), for every candidate block, every
difficulty in force during the call and every interleaving of the goroutines,
the returned string is the Hash stored in the block and that hash starts with
at least `difficulty` characters '0'. -/
theorem ProofOfWork_hash_qualifies (env : SealEnv) (difficulty : Int) (b : Block)
    (r : SealResult) (hcpu : 0 < env.numCPU) (hret : ProofOfWork env difficulty b = some r) :
    r.ret = r.block.Hash ∧ 0 ≤ difficulty ∧
      List.replicate difficulty.toNat '0' <+: r.block.Hash.data := by
  obtain ⟨hash, nonce, _, hq, rfl⟩ := ProofOfWork_returns hcpu hret
  exact ⟨rfl, hq.1, hq.2⟩

set_option maxRecDepth 100000 in
/-- Witness for C3: two goroutines seal the genesis candidate at difficulty 3. -/
theorem ProofOfWork_hash_qualifies_witness :
    ProofOfWork exEnv 3 exCandidate = some exSealed ∧
    exSealed.ret = exSealed.block.Hash ∧ (0 : Int) ≤ 3 ∧
      List.replicate (3 : Int).toNat '0' <+: exSealed.block.Hash.data :=
  ⟨by decide, ProofOfWork_hash_qualifies exEnv 3 exCandidate exSealed (by decide) (by decide)⟩

/-- C4: after ProofOfWork returns, for every candidate block (whatever its
fields, prior hash and nonce included), ValidateBlock accepts the block: the
Hash written into it is CalculateHash of the block with the Nonce written into
it.  The block differs from the candidate only in Nonce and Hash, CalculateHash
does not read Hash, and assigning the returned string to Hash again, as the
callers do, changes nothing. -/
theorem ProofOfWork_block_valid (env : SealEnv) (difficulty : Int) (b : Block)
    (r : SealResult) (hcpu : 0 < env.numCPU) (hret : ProofOfWork env difficulty b = some r) :
    ValidateBlock r.block = true ∧
    r.block.Hash = CalculateHash r.block ∧
    r.block = { b with Hash := r.block.Hash, Nonce := r.block.Nonce } ∧
    (∀ h : String, CalculateHash { r.block with Hash := h } = CalculateHash r.block) ∧
    { r.block with Hash := r.ret } = r.block := by
  obtain ⟨hash, nonce, hh, _, rfl⟩ := ProofOfWork_returns hcpu hret
  have hv : hash = CalculateHash { b with Hash := hash, Nonce := nonce } := hh
  exact ⟨(ValidateBlock_iff _).mpr hv, hv, rfl, fun _ => rfl, rfl⟩

set_option maxRecDepth 100000 in
/-- Witness for C4: the genesis candidate sealed by two goroutines at difficulty 3. -/
theorem ProofOfWork_block_valid_witness :
    ProofOfWork exEnv 3 exCandidate = some exSealed ∧ ValidateBlock exSealed.block = true :=
  ⟨by decide,
   (ProofOfWork_block_valid exEnv 3 exCandidate exSealed (by decide) (by decide)).1⟩

/-! ## Adaptive difficulty -/

theorem wrapInt64_of_range {x : Int} (hlo : -9223372036854775808 ≤ x)
    (hhi : x ≤ 9223372036854775807) : wrapInt64 x = x := by
  unfold wrapInt64
  omega

theorem ProofOfWork_difficulty_le {env : SealEnv} {difficulty : Int} {b : Block}
    {r : SealResult} (hcpu : 0 < env.numCPU) (hret : ProofOfWork env difficulty b = some r) :
    difficulty ≤ 64 ∧ r.difficulty = adjustDifficulty difficulty env.elapsed := by
  obtain ⟨hash, nonce, hh, hq, rfl⟩ := ProofOfWork_returns hcpu hret
  refine ⟨?_, rfl⟩
  have hlen := hq.2.length_le
  rw [hh, length_CalculateHash, List.length_replicate] at hlen
  have := hq.1
  omega

theorem adjustDifficulty_bounds {d : Int} (t : Int) (h1 : 1 ≤ d) (h2 : d ≤ 64) :
    1 ≤ adjustDifficulty d t ∧ adjustDifficulty d t ≤ 65 := by
  unfold adjustDifficulty
  split
  · rw [wrapInt64_of_range (by omega) (by omega)]
    omega
  · split
    · rename_i h
      rw [wrapInt64_of_range (by omega) (by omega)]
      omega
    · omega

theorem difficultyAfter_bounds (seals : List (SealEnv × Block)) :
    ∀ d0 d : Int, 1 ≤ d0 → d0 ≤ 65 → (∀ e ∈ seals, 0 < e.1.numCPU) →
      difficultyAfter d0 seals = some d → 1 ≤ d ∧ d ≤ 65 := by
  induction seals with
  | nil =>
    intro d0 d h1 h2 _ h
    cases h
    exact ⟨h1, h2⟩
  | cons e rest ih =>
    intro d0 d h1 h2 hcpu h
    obtain ⟨env, b⟩ := e
    unfold difficultyAfter at h
    split at h
    · cases h
    · rename_i r hr
      have hpos : 0 < env.numCPU := hcpu (env, b) (List.mem_cons_self _ _)
      obtain ⟨hle, hd⟩ := ProofOfWork_difficulty_le hpos hr
      have hb := adjustDifficulty_bounds env.elapsed h1 hle
      rw [← hd] at hb
      exact ih r.difficulty d hb.1 hb.2 (fun e he => hcpu e (List.mem_cons_of_mem _ he)) h

/-- On every value of the type int, adjustDifficulty raises the difficulty by
one after a search under 10 ms unless it is the largest int, lowers it by one
after a search over 5 s if it exceeds 1, and leaves it otherwise. -/
theorem adjustDifficulty_int64 (k t : Int) (hlo : -9223372036854775808 ≤ k)
    (hhi : k ≤ 9223372036854775807) :
    (t < 10 * Millisecond → k < 9223372036854775807 → adjustDifficulty k t = k + 1) ∧
    (t > 5 * Second → k > 1 → adjustDifficulty k t = k - 1) ∧
    (10 * Millisecond ≤ t → t ≤ 5 * Second → adjustDifficulty k t = k) ∧
    (t > 5 * Second → k ≤ 1 → adjustDifficulty k t = k) := by
  have hms : Millisecond = 1000000 := rfl
  have hs : Second = 1000000000 := rfl
  refine ⟨?_, ?_, ?_, ?_⟩
  · intro h hk
    unfold adjustDifficulty
    rw [if_pos h, wrapInt64_of_range (by omega) (by omega)]
  · intro h hk
    unfold adjustDifficulty
    rw [if_neg (by omega), if_pos ⟨h, hk⟩, wrapInt64_of_range (by omega) (by omega)]
  · intro h1 h2
    unfold adjustDifficulty
    rw [if_neg (by omega), if_neg (by omega)]
  · intro h hk
    unfold adjustDifficulty
    rw [if_neg (by omega), if_neg (by omega)]

/-- A value the difficulty can hold lies between 1 and 65. -/
theorem ReachableDifficulty.bounds {k : Int} (hk : ReachableDifficulty k) : 1 ≤ k ∧ k ≤ 65 := by
  obtain ⟨seals, hcpu, hrun⟩ := hk
  exact difficultyAfter_bounds seals initialDifficulty k (by decide) (by decide) hcpu hrun

/-- The initial value is a value the difficulty can hold. -/
theorem ReachableDifficulty.initial : ReachableDifficulty initialDifficulty :=
  ⟨[], fun _ h => absurd h (List.not_mem_nil _), rfl⟩

/-- C5: for every value k the difficulty can hold and every measured mining
duration t, adjustDifficulty sets the difficulty to k+1 if t < 10ms, to k-1 if
t > 5s and k > 1, and leaves it at k otherwise (at t exactly 10ms, at t exactly
5s, and for t > 5s with k = 1); and, starting from the initial value 3, the
difficulty never falls below 1 after any sequence of seals: k itself, the value
adjustDifficulty sets, and the value after any sequence of ProofOfWork calls
that returned are all at least 1. -/
theorem adjustDifficulty_spec (k t : Int) (hk : ReachableDifficulty k) :
    (t < 10 * Millisecond → adjustDifficulty k t = k + 1) ∧
    (t > 5 * Second → k > 1 → adjustDifficulty k t = k - 1) ∧
    (¬ t < 10 * Millisecond → ¬ (t > 5 * Second ∧ k > 1) → adjustDifficulty k t = k) ∧
    adjustDifficulty k (10 * Millisecond) = k ∧
    adjustDifficulty k (5 * Second) = k ∧
    (t > 5 * Second → k = 1 → adjustDifficulty k t = k) ∧
    1 ≤ k ∧ 1 ≤ adjustDifficulty k t ∧
    (∀ (seals : List (SealEnv × Block)) (d : Int), (∀ e ∈ seals, 0 < e.1.numCPU) →
      difficultyAfter initialDifficulty seals = some d → 1 ≤ d) := by
  have hb := hk.bounds
  have hms : Millisecond = 1000000 := rfl
  have hs : Second = 1000000000 := rfl
  have h := adjustDifficulty_int64 k t (by omega) (by omega)
  have h10 := adjustDifficulty_int64 k (10 * Millisecond) (by omega) (by omega)
  have h5 := adjustDifficulty_int64 k (5 * Second) (by omega) (by omega)
  refine ⟨fun ht => h.1 ht (by omega), h.2.1, ?_, h10.2.2.1 (le_refl _) (by omega),
    h5.2.2.1 (by omega) (le_refl _), fun ht hk1 => h.2.2.2 ht (by omega), hb.1, ?_, ?_⟩
  · intro h1 h2
    by_cases ht : t > 5 * Second
    · exact h.2.2.2 ht (by
        by_contra hk1
        exact h2 ⟨ht, by omega⟩)
    · exact h.2.2.1 (by omega) (by omega)
  · by_cases hle : k ≤ 64
    · exact (adjustDifficulty_bounds t hb.1 hle).1
    · have hk65 : k = 65 := by omega
      subst hk65
      unfold adjustDifficulty
      split
      · rw [wrapInt64_of_range (by omega) (by omega)]
        omega
      · split
        · rw [wrapInt64_of_range (by omega) (by omega)]
          omega
        · omega
  · intro seals d hcpu hrun
    exact (difficultyAfter_bounds seals initialDifficulty d (by decide) (by decide) hcpu hrun).1

set_option maxRecDepth 100000 in
/-- Witness for C5: sealing the genesis candidate within 5 ms raises the
difficulty from 3 to 4, and at 4 a search of 6 s lowers it to 3 again. -/
theorem adjustDifficulty_spec_witness :
    difficultyAfter initialDifficulty [(exEnvFast, exCandidate)] = some 4 ∧
    adjustDifficulty 4 6000000000 = 4 - 1 ∧ (1 : Int) ≤ adjustDifficulty 4 6000000000 :=
  have hrun : difficultyAfter initialDifficulty [(exEnvFast, exCandidate)] = some 4 := by decide
  have h := adjustDifficulty_spec 4 6000000000 ⟨[(exEnvFast, exCandidate)], by decide, hrun⟩
  ⟨hrun, h.2.1 (by decide) (by decide), h.2.2.2.2.2.2.2.1⟩

/-- At the largest value of the type int the increment of adjustDifficulty
wraps around; by `ReachableDifficulty.bounds` the difficulty never holds that
value. -/
theorem adjustDifficulty_wraps :
    (0 : Int) < 10 * Millisecond ∧
    adjustDifficulty 9223372036854775807 0 = -9223372036854775808 ∧
    adjustDifficulty 9223372036854775807 0 ≠ 9223372036854775807 + 1 ∧
    ¬ ReachableDifficulty 9223372036854775807 := by
  refine ⟨by decide, by decide, by decide, ?_⟩
  intro h
  have := h.bounds.2
  omega

/-! ## Replication: blocks -/

theorem handleBlock_ok (chain : Blockchain) (b : Block) :
    handleBlock (.ok b) chain =
      if ValidateBlock b = true ∧
          (chain = [] ∨ ∃ last, chain.getLast? = some last ∧ b.PrevHash = last.Hash)
      then chain ++ [b] else chain := by
  unfold handleBlock
  by_cases hv : ValidateBlock b = true
  · simp only [hv, Bool.not_true, Bool.false_eq_true, if_false, true_and]
    cases hl : chain.getLast? with
    | none =>
      have : chain = [] := List.getLast?_eq_none_iff.mp hl
      simp [this]
    | some last =>
      have hne : chain ≠ [] := by
        intro h
        rw [h] at hl
        cases hl
      by_cases hp : b.PrevHash = last.Hash
      · simp [hp, hne]
      · simp [hp, hne]
  · simp [hv]

/-- C6, as amended: for every local chain and every successfully decoded
block, handleBlock appends the block if and only if ValidateBlock(block) is
true and either the chain is empty or block.PrevHash equals the Hash of the
chain's current last block; in every other case the chain is left exactly as it
was. -/
theorem handleBlock_appends_iff (chain : Blockchain) (b : Block) :
    (handleBlock (.ok b) chain = chain ++ [b] ↔
      ValidateBlock b = true ∧
        (chain = [] ∨ ∃ last, chain.getLast? = some last ∧ b.PrevHash = last.Hash)) ∧
    (¬ (ValidateBlock b = true ∧
        (chain = [] ∨ ∃ last, chain.getLast? = some last ∧ b.PrevHash = last.Hash)) →
      handleBlock (.ok b) chain = chain) := by
  rw [handleBlock_ok]
  constructor
  · constructor
    · intro h
      by_contra hc
      rw [if_neg hc] at h
      have := congrArg List.length h
      simp at this
    · intro h
      rw [if_pos h]
  · intro h
    rw [if_neg h]

set_option maxRecDepth 100000 in
/-- Witness for C6: a block that does not validate is not appended to a
one-block chain, and the sealed successor of the genesis block is. -/
theorem handleBlock_appends_iff_witness :
    handleBlock (.ok exTampered) [exGenesis] = [exGenesis] ∧
    handleBlock (.ok exB1) [exGenesis] = [exGenesis] ++ [exB1] :=
  ⟨(handleBlock_appends_iff [exGenesis] exTampered).2 (by decide),
   (handleBlock_appends_iff [exGenesis] exB1).1.mpr (by decide)⟩

set_option maxRecDepth 100000 in
/-- Counterexample to C6 as stated: on the empty chain, which has no last
block, handleBlock appends a block that validates. -/
theorem handleBlock_empty_chain :
    ValidateBlock exGenesis = true ∧
    handleBlock (.ok exGenesis) [] = [] ++ [exGenesis] ∧
    ¬ (∃ last, ([] : Blockchain).getLast? = some last ∧ exGenesis.PrevHash = last.Hash) := by
  decide

/-! ## Replication: forks -/

/-- Two blocks that validate and name the Hash of the same block B1 as
PrevHash each extend a valid chain ending in B1 to a valid chain. -/
theorem ValidateBlockchain_fork (G B1 B2 : Block) (hv : ValidateBlock B2 = true)
    (hl : B2.PrevHash = B1.Hash) (hc : ValidateBlockchain [G, B1] = true) :
    ValidateBlockchain [G, B1, B2] = true := by
  simp only [ValidateBlockchain, ValidateBlockchain.loop, List.length_cons, List.length_nil,
    List.get?] at hc ⊢
  revert hc
  simp only [hv, hl, Nat.reduceAdd, Nat.add_one_sub_one, List.get?, Nat.reduceSub]
  by_cases h1 : ValidateBlock B1 = true <;> by_cases h2 : B1.PrevHash = G.Hash <;> simp [h1, h2]

/-- The first of two blocks that validate and link to the tip B1 is appended;
the second is then ignored provided the Hash of the first differs from the
Hash of B1, the value both carry as PrevHash. -/
theorem handleBlock_fork (G B1 B2a B2b : Block) (hva : ValidateBlock B2a = true)
    (hla : B2a.PrevHash = B1.Hash)
    (hlb : B2b.PrevHash = B1.Hash) (hne : B2a.Hash ≠ B1.Hash) :
    handleBlock (.ok B2b) (handleBlock (.ok B2a) [G, B1]) = [G, B1, B2a] := by
  have h1 : handleBlock (.ok B2a) [G, B1] = [G, B1, B2a] := by
    rw [handleBlock_ok, if_pos]
    · rfl
    · exact ⟨hva, Or.inr ⟨B1, rfl, hla⟩⟩
  rw [h1, handleBlock_ok, if_neg]
  rintro ⟨_, h | ⟨last, hlast, hp⟩⟩
  · cases h
  · have : last = B2a := by
      simp at hlast
      exact hlast.symm
    rw [this, hlb] at hp
    exact hne hp.symm

/-! ## Replication: peer addresses -/

theorem NodeIsKnown_iff (K : List String) (a : String) : NodeIsKnown K a = true ↔ a ∈ K := by
  induction K with
  | nil => simp [NodeIsKnown]
  | cons k K ih =>
    unfold NodeIsKnown
    by_cases h : k = a
    · simp [h]
    · have h2 : ¬ a = k := fun e => h e.symm
      simp [h, h2, ih]

theorem firstOccurrences.go_congr (M : List String) :
    ∀ s1 s2 : List String, (∀ x, x ∈ s1 ↔ x ∈ s2) →
      firstOccurrences.go s1 M = firstOccurrences.go s2 M := by
  induction M with
  | nil =>
    intro s1 s2 _
    rfl
  | cons a M ih =>
    intro s1 s2 h
    unfold firstOccurrences.go
    by_cases ha : a ∈ s1
    · rw [if_pos ha, if_pos ((h a).mp ha)]
      exact ih s1 s2 h
    · rw [if_neg ha, if_neg (fun h2 => ha ((h a).mpr h2))]
      congr 1
      apply ih
      intro x
      simp [h x]

theorem firstOccurrences.go_cons_seen (a : String) (M : List String) :
    ∀ seen : List String, firstOccurrences.go (a :: seen) M =
      firstOccurrences.go seen (M.filter fun x => decide (x ≠ a)) := by
  induction M with
  | nil =>
    intro seen
    rfl
  | cons x M ih =>
    intro seen
    by_cases hxa : x = a
    · subst hxa
      simp [firstOccurrences.go, ih]
    · have hf : (x :: M).filter (fun y => decide (y ≠ a)) =
          x :: M.filter (fun y => decide (y ≠ a)) := by
        simp [hxa]
      rw [hf]
      unfold firstOccurrences.go
      by_cases hx : x ∈ seen
      · rw [if_pos (List.mem_cons_of_mem _ hx), if_pos hx]
        exact ih seen
      · have hx2 : x ∉ a :: seen := by
          simp [hxa, hx]
        rw [if_neg hx2, if_neg hx]
        congr 1
        rw [← ih (x :: seen)]
        apply firstOccurrences.go_congr
        intro y
        simp only [List.mem_cons]
        tauto

theorem firstOccurrences.go_nil_cons (a : String) (rest : List String) :
    firstOccurrences.go [] (a :: rest) = a :: firstOccurrences.go [a] rest := by
  simp [firstOccurrences.go]

theorem HandleAddr.merge_eq (L : List String) :
    ∀ K : List String, HandleAddr.merge K L = mergedPeers K L := by
  induction L with
  | nil =>
    intro K
    simp [HandleAddr.merge, mergedPeers, firstOccurrences, firstOccurrences.go]
  | cons a L ih =>
    intro K
    unfold HandleAddr.merge
    by_cases hk : a ∈ K
    · have h1 : NodeIsKnown K a = true := (NodeIsKnown_iff K a).mpr hk
      simp only [h1, Bool.not_true, Bool.false_and, Bool.false_eq_true, if_false]
      rw [ih K]
      simp [mergedPeers, hk]
    · have h1 : NodeIsKnown K a = false := by
        rw [← Bool.not_eq_true, NodeIsKnown_iff]
        exact hk
      by_cases he : a = ""
      · simp only [h1, he, Bool.not_false, bne_self_eq_false, Bool.and_false, Bool.false_eq_true,
          if_false]
        rw [ih K]
        simp [mergedPeers]
      · have h2 : (a != "") = true := by simpa using he
        simp only [h1, h2, Bool.not_false, Bool.and_self, if_true]
        rw [ih (K ++ [a])]
        unfold mergedPeers firstOccurrences
        have hf : (a :: L).filter (fun x => decide (x ≠ "" ∧ x ∉ K)) =
            a :: L.filter (fun x => decide (x ≠ "" ∧ x ∉ K)) := by
          simp [he, hk]
        rw [hf]
        rw [firstOccurrences.go_nil_cons, firstOccurrences.go_cons_seen, List.filter_filter]
        simp only [List.append_assoc, List.singleton_append]
        congr 3
        apply List.filter_congr
        intro x _
        simp only [List.mem_append, List.mem_singleton, not_or, ne_eq, decide_not,
          Bool.decide_and]
        cases decide (x = "") <;> cases decide (x = a) <;> cases decide (x ∈ K) <;> rfl

theorem firstOccurrences.mem_go (M : List String) :
    ∀ (seen : List String) (x : String),
      x ∈ firstOccurrences.go seen M ↔ x ∈ M ∧ x ∉ seen := by
  induction M with
  | nil =>
    intro seen x
    simp [firstOccurrences.go]
  | cons a M ih =>
    intro seen x
    unfold firstOccurrences.go
    by_cases ha : a ∈ seen
    · rw [if_pos ha, ih]
      constructor
      · rintro ⟨h1, h2⟩
        exact ⟨List.mem_cons_of_mem _ h1, h2⟩
      · rintro ⟨h1, h2⟩
        refine ⟨?_, h2⟩
        rcases List.mem_cons.mp h1 with h | h
        · subst h
          exact absurd ha h2
        · exact h
    · rw [if_neg ha, List.mem_cons, ih]
      simp only [List.mem_cons, not_or]
      constructor
      · rintro (h | ⟨h1, h2, h3⟩)
        · subst h
          exact ⟨Or.inl rfl, ha⟩
        · exact ⟨Or.inr h1, h3⟩
      · rintro ⟨h1 | h1, h2⟩
        · exact Or.inl h1
        · by_cases hxa : x = a
          · exact Or.inl hxa
          · exact Or.inr ⟨h1, hxa, h2⟩

theorem firstOccurrences.nodup_go (M : List String) :
    ∀ seen : List String, (firstOccurrences.go seen M).Nodup := by
  induction M with
  | nil =>
    intro seen
    simp [firstOccurrences.go]
  | cons a M ih =>
    intro seen
    unfold firstOccurrences.go
    by_cases ha : a ∈ seen
    · rw [if_pos ha]
      exact ih seen
    · rw [if_neg ha, List.nodup_cons]
      refine ⟨?_, ih _⟩
      rw [firstOccurrences.mem_go]
      simp

/-- C9: for every peer set K without duplicates and every successfully decoded
address list L, the peer set after HandleAddr is K followed by exactly the
addresses of L that are non-empty and not in K, each once in order of first
occurrence; every address of K is still present, an address is added only if
it is in L and is not the empty string, every non-empty address of L is
present, and the result has no duplicates. -/
theorem HandleAddr_merges (K L : List String) (hK : K.Nodup) :
    (HandleAddr K (.ok L)).1 = mergedPeers K L ∧
    (∀ a ∈ K, a ∈ (HandleAddr K (.ok L)).1) ∧
    (∀ a ∈ (HandleAddr K (.ok L)).1, a ∈ K ∨ (a ∈ L ∧ a ≠ "")) ∧
    (∀ a ∈ L, a ≠ "" → a ∈ (HandleAddr K (.ok L)).1) ∧
    ((HandleAddr K (.ok L)).1).Nodup := by
  have h : (HandleAddr K (.ok L)).1 = mergedPeers K L := HandleAddr.merge_eq L K
  rw [h]
  have hmem : ∀ a, a ∈ mergedPeers K L ↔ a ∈ K ∨ (a ∈ L ∧ a ≠ "" ∧ a ∉ K) := by
    intro a
    unfold mergedPeers firstOccurrences
    rw [List.mem_append, firstOccurrences.mem_go]
    simp
  refine ⟨rfl, ?_, ?_, ?_, ?_⟩
  · intro a ha
    exact (hmem a).mpr (Or.inl ha)
  · intro a ha
    rcases (hmem a).mp ha with h1 | ⟨h1, h2, _⟩
    · exact Or.inl h1
    · exact Or.inr ⟨h1, h2⟩
  · intro a ha hne
    by_cases hk : a ∈ K
    · exact (hmem a).mpr (Or.inl hk)
    · exact (hmem a).mpr (Or.inr ⟨ha, hne, hk⟩)
  · unfold mergedPeers firstOccurrences
    rw [List.nodup_append]
    refine ⟨hK, firstOccurrences.nodup_go _ _, ?_⟩
    intro a ha hb
    rw [firstOccurrences.mem_go, List.mem_filter] at hb
    have h2 := of_decide_eq_true hb.1.2
    exact h2.2 ha

/-- Witness for C9: the list repeats an address, names a known one and holds
the empty string. -/
theorem HandleAddr_merges_witness :
    (HandleAddr ["10.0.0.1:8594", "10.0.0.2:8594"]
      (.ok ["10.0.0.3:8594", "", "10.0.0.1:8594", "10.0.0.3:8594", "10.0.0.4:8594"])).1 =
      ["10.0.0.1:8594", "10.0.0.2:8594", "10.0.0.3:8594", "10.0.0.4:8594"] :=
  ((HandleAddr_merges ["10.0.0.1:8594", "10.0.0.2:8594"]
      ["10.0.0.3:8594", "", "10.0.0.1:8594", "10.0.0.3:8594", "10.0.0.4:8594"]
      (by decide)).1).trans (by decide)

/-! ## Replication: command tags -/

theorem utf8Char_ascii {c : Char} (h : c.toNat < 128) : utf8Char c = [c.toNat] := by
  unfold utf8Char
  simp [h]

theorem utf8_ascii (cs : List Char) (h : ∀ c ∈ cs, c.toNat < 128) :
    cs.flatMap utf8Char = cs.map Char.toNat := by
  induction cs with
  | nil => rfl
  | cons c cs ih =>
    have hc : c.toNat < 128 := h c (List.mem_cons_self _ _)
    have ht : ∀ x ∈ cs, x.toNat < 128 := fun x hx => h x (List.mem_cons_of_mem _ hx)
    rw [List.flatMap_cons, utf8Char_ascii hc, ih ht]
    rfl

theorem CmdToBytes.loop_ascii (cs : List Char) :
    ∀ pre : List Nat, (∀ c ∈ cs, c.toNat < 128) → pre.length ≤ 12 →
      CmdToBytes.loop cs pre.length (pre ++ List.replicate (12 - pre.length) 0) =
        pre ++ (cs.map Char.toNat).take (12 - pre.length) ++
          List.replicate (12 - pre.length - cs.length) 0 := by
  induction cs with
  | nil =>
    intro pre _ _
    simp [CmdToBytes.loop]
  | cons c rest ih =>
    intro pre hascii hlen
    have hc : c.toNat < 128 := hascii c (List.mem_cons_self _ _)
    have ht : ∀ x ∈ rest, x.toNat < 128 := fun x hx => hascii x (List.mem_cons_of_mem _ hx)
    unfold CmdToBytes.loop
    by_cases hlt : pre.length < commandLength
    · have hlt2 : pre.length < 12 := hlt
      rw [if_pos hlt, utf8Char_ascii hc]
      have hmod : c.toNat % 256 = c.toNat := Nat.mod_eq_of_lt (by omega)
      obtain ⟨k, hk⟩ : ∃ k, 12 - pre.length = k + 1 := ⟨11 - pre.length, by omega⟩
      have hset : (pre ++ List.replicate (12 - pre.length) 0).set pre.length (c.toNat % 256) =
          (pre ++ [c.toNat]) ++ List.replicate (12 - (pre ++ [c.toNat]).length) 0 := by
        rw [List.set_append_right _ _ (le_refl _), hmod, hk]
        have : 12 - (pre ++ [c.toNat]).length = k := by
          simp only [List.length_append, List.length_singleton]
          omega
        rw [this]
        simp [List.replicate_succ]
      have hl1 : pre.length + [c.toNat].length = (pre ++ [c.toNat]).length := by simp
      rw [hset, hl1, ih (pre ++ [c.toNat]) ht (by simp; omega)]
      have h1 : 12 - (pre ++ [c.toNat]).length = k := by
        simp only [List.length_append, List.length_singleton]
        omega
      rw [h1, hk]
      simp only [List.map_cons, List.take_succ_cons, List.length_cons, List.append_assoc,
        List.singleton_append, Nat.add_sub_add_right]
    · have hlen2 : pre.length = 12 := by
        have : commandLength = 12 := rfl
        omega
      rw [if_neg hlt, hlen2]
      simp

theorem CmdToBytes_ascii (cmd : String) (hascii : ∀ c ∈ cmd.data, c.toNat < 128) :
    CmdToBytes cmd = (utf8 cmd).take 12 ++ List.replicate (12 - (utf8 cmd).length) 0 := by
  have h := CmdToBytes.loop_ascii cmd.data [] hascii (by simp)
  simp only [List.length_nil, List.nil_append, Nat.sub_zero] at h
  unfold CmdToBytes utf8
  rw [utf8_ascii _ hascii, List.length_map]
  exact h

theorem BytesToCmd.loop_eq (bytes : List Nat) :
    ∀ cmd : List Nat, BytesToCmd.loop bytes cmd = cmd ++ bytes.takeWhile fun b => b != 0 := by
  induction bytes with
  | nil =>
    intro cmd
    simp [BytesToCmd.loop]
  | cons b rest ih =>
    intro cmd
    unfold BytesToCmd.loop
    by_cases hb : (b != 0) = true
    · rw [if_pos hb, ih]
      simp [List.takeWhile_cons, hb]
    · rw [if_neg hb]
      simp [List.takeWhile_cons, hb]

theorem BytesToCmd_padded (m : List Nat) (z : Nat) (hm : ∀ b ∈ m, b ≠ 0) :
    BytesToCmd (m ++ List.replicate z 0) = m := by
  unfold BytesToCmd
  rw [BytesToCmd.loop_eq, List.nil_append, List.takeWhile_append_of_pos]
  · cases z with
    | zero => simp
    | succ n => simp [List.replicate_succ]
  · intro a ha
    simpa using hm a ha

theorem request_command (hdr payload : List Nat) (h : hdr.length = 12) :
    (((hdr ++ payload) ++ List.replicate (4096 - (hdr ++ payload).length) 0).take 4096).take
      commandLength = hdr := by
  rw [List.take_take, List.append_assoc]
  exact List.take_left' h

/-- A request that starts with the 12 bytes of a tag is handed to the branch
the tag is dispatched to. -/
theorem HandleConnection_tagged (gob : Gob) (node : Node) (hdr payload : List Nat)
    (h : hdr.length = 12) :
    ∃ p, HandleConnection gob node (.ok (hdr ++ payload)) =
      (match dispatch (BytesToCmd hdr) with
      | .addr => { node with KnownNodes := (HandleAddr node.KnownNodes (gob.decodeAddr p)).1 }
      | .block => { node with blockchain := handleBlock (gob.decodeBlock p) node.blockchain }
      | .room => { node with fs := handleRoom (gob.decodeRoom p) node.fs }
      | .unknown => node) := by
  refine ⟨(((hdr ++ payload) ++ List.replicate (4096 - (hdr ++ payload).length) 0).take
    4096).drop commandLength, ?_⟩
  unfold HandleConnection
  simp only
  rw [request_command hdr payload h]

/-- C10: for every ASCII command string without a NUL byte, CmdToBytes yields
exactly 12 bytes, the bytes of the command followed by zero padding or its
first 12 bytes when it is longer, and BytesToCmd gives back the command when it
has at most 12 bytes and its first 12 bytes otherwise; the tags "addr",
"block" and "room" survive the round trip and the dispatch of HandleConnection
sends the three to three different branches. -/
theorem CmdToBytes_roundtrip (cmd : String) (hascii : ∀ c ∈ cmd.data, c.toNat < 128)
    (hnul : ∀ c ∈ cmd.data, c.toNat ≠ 0) :
    (CmdToBytes cmd).length = 12 ∧
    CmdToBytes cmd = (utf8 cmd).take 12 ++ List.replicate (12 - (utf8 cmd).length) 0 ∧
    ((utf8 cmd).length ≤ 12 → BytesToCmd (CmdToBytes cmd) = utf8 cmd) ∧
    (12 < (utf8 cmd).length → BytesToCmd (CmdToBytes cmd) = (utf8 cmd).take 12) ∧
    BytesToCmd (CmdToBytes "addr") = utf8 "addr" ∧
    BytesToCmd (CmdToBytes "block") = utf8 "block" ∧
    BytesToCmd (CmdToBytes "room") = utf8 "room" ∧
    dispatch (BytesToCmd (CmdToBytes "addr")) = .addr ∧
    dispatch (BytesToCmd (CmdToBytes "block")) = .block ∧
    dispatch (BytesToCmd (CmdToBytes "room")) = .room ∧
    (∀ (gob : Gob) (node : Node) (payload : List Nat),
      (∃ p, HandleConnection gob node (.ok (CmdToBytes "addr" ++ payload)) =
        { node with KnownNodes := (HandleAddr node.KnownNodes (gob.decodeAddr p)).1 }) ∧
      (∃ p, HandleConnection gob node (.ok (CmdToBytes "block" ++ payload)) =
        { node with blockchain := handleBlock (gob.decodeBlock p) node.blockchain }) ∧
      (∃ p, HandleConnection gob node (.ok (CmdToBytes "room" ++ payload)) =
        { node with fs := handleRoom (gob.decodeRoom p) node.fs })) := by
  have hb : ∀ b ∈ utf8 cmd, b ≠ 0 := by
    unfold utf8
    rw [utf8_ascii _ hascii]
    intro b hb
    obtain ⟨c, hc, rfl⟩ := List.mem_map.mp hb
    exact hnul c hc
  have hrt : BytesToCmd (CmdToBytes cmd) = (utf8 cmd).take 12 := by
    rw [CmdToBytes_ascii cmd hascii]
    exact BytesToCmd_padded _ _ (fun b h => hb b (List.mem_of_mem_take h))
  refine ⟨?_, CmdToBytes_ascii cmd hascii, ?_, fun _ => hrt, by decide, by decide, by decide,
    by decide, by decide, by decide, fun gob node payload => ⟨?_, ?_, ?_⟩⟩
  · rw [CmdToBytes_ascii cmd hascii, List.length_append, List.length_take,
      List.length_replicate]
    omega
  · intro hle
    rw [hrt, List.take_of_length_le hle]
  · exact HandleConnection_tagged gob node (CmdToBytes "addr") payload (by decide)
  · exact HandleConnection_tagged gob node (CmdToBytes "block") payload (by decide)
  · exact HandleConnection_tagged gob node (CmdToBytes "room") payload (by decide)

/-- Witness for C10: the tag "block". -/
theorem CmdToBytes_roundtrip_witness :
    CmdToBytes "block" = [98, 108, 111, 99, 107, 0, 0, 0, 0, 0, 0, 0] ∧
    BytesToCmd (CmdToBytes "block") = utf8 "block" :=
  have h := CmdToBytes_roundtrip "block" (by decide) (by decide)
  ⟨h.2.1.trans (by decide), h.2.2.1 (by decide)⟩

/-! ## Ledger bootstrap -/

theorem loadBlockchain_eq_fresh (fs : FileSystem) (difficulty now : Int) (env : SealEnv)
    (filename : String)
    (hfile : fs.files filename = none ∨
      (fs.files filename = some .empty ∧ fs.readError filename = none)) :
    loadBlockchain fs difficulty now env filename =
      loadBlockchain.fresh fs difficulty now env filename := by
  unfold loadBlockchain ReadFile
  rcases hfile with h | ⟨h1, h2⟩
  · simp [h]
  · simp [h1, h2]

theorem loadBlockchain.fresh_of_seal (fs : FileSystem) (difficulty now : Int) (env : SealEnv)
    (filename : String) (s : SealResult)
    (hs : ProofOfWork env difficulty (CreateGenesisBlock now) = some s) :
    loadBlockchain.fresh fs difficulty now env filename =
      match fs.writeError filename with
      | some err => some { result := .error err, fs := fs, difficulty := s.difficulty }
      | none => some { result := .ok [{ s.block with Hash := s.ret }],
                       fs := { fs with files := (Function.update fs.files filename
                                (some (.json [{ s.block with Hash := s.ret }]))) },
                       difficulty := s.difficulty } := by
  unfold loadBlockchain.fresh
  simp only [hs, SaveBlockchain, WriteFile]
  cases fs.writeError filename <;> rfl

/-- C8, as amended: for every ledger file name, when the file does not exist,
and when it exists with zero bytes and can be read, loadBlockchain returns
exactly when the proof-of-work search on the genesis candidate returns; if the
write of the ledger succeeds it then returns without error a chain of exactly
one block whose Index is 0, whose PrevHash is "0", whose payload is the
sentinel (ballotId "genesis", choiceId "genesis"), which passes ValidateBlock
and whose Hash has the leading zeros of the difficulty in force, and that same
one-block chain is what the file holds afterwards; if the write fails it
returns the error of the write. -/
theorem loadBlockchain_bootstrap (fs : FileSystem) (difficulty now : Int) (env : SealEnv)
    (filename : String)
    (hfile : fs.files filename = none ∨
      (fs.files filename = some .empty ∧ fs.readError filename = none))
    (hcpu : 0 < env.numCPU) :
    (ProofOfWork env difficulty (CreateGenesisBlock now) = none →
      loadBlockchain fs difficulty now env filename = none) ∧
    (∀ s, ProofOfWork env difficulty (CreateGenesisBlock now) = some s →
      ∃ r, loadBlockchain fs difficulty now env filename = some r ∧
        r.difficulty = s.difficulty ∧
        (fs.writeError filename = none →
          r.result = .ok [s.block] ∧
          s.block.Index = 0 ∧ s.block.PrevHash = "0" ∧
          s.block.Data = { BallotID := "genesis", ChoiceID := "genesis" } ∧
          s.block.Timestamp = now ∧
          ValidateBlock s.block = true ∧
          Qualifies difficulty s.block.Hash ∧
          r.fs.files filename = some (.json [s.block])) ∧
        (∀ err, fs.writeError filename = some err → r.result = .error err)) := by
  rw [loadBlockchain_eq_fresh fs difficulty now env filename hfile]
  constructor
  · intro h
    unfold loadBlockchain.fresh
    simp only [h]
  · intro s hs
    rw [loadBlockchain.fresh_of_seal fs difficulty now env filename s hs]
    obtain ⟨hash, nonce, hh, hq, rfl⟩ := ProofOfWork_returns hcpu hs
    have hv : hash = CalculateHash { CreateGenesisBlock now with Hash := hash, Nonce := nonce } :=
      hh
    cases hw : fs.writeError filename with
    | none =>
      refine ⟨_, rfl, rfl, fun _ => ⟨rfl, rfl, rfl, rfl, rfl, (ValidateBlock_iff _).mpr hv, hq, ?_⟩,
        ?_⟩
      · simp
      · intro err herr
        cases herr
    | some e =>
      refine ⟨_, rfl, rfl, ?_, ?_⟩
      · intro h
        cases h
      · intro err herr
        cases herr
        rfl

set_option maxRecDepth 100000 in
/-- Witness for C8: the ledger is missing, or is there with zero bytes, and two
goroutines seal the genesis block at difficulty 3. -/
theorem loadBlockchain_bootstrap_witness :
    (∃ r, loadBlockchain exNoFile 3 1700000000 exEnv exLedger = some r ∧
      r.result = .ok [exGenesis] ∧ r.fs.files exLedger = some (.json [exGenesis])) ∧
    (∃ r, loadBlockchain exEmptyFile 3 1700000000 exEnv exLedger = some r ∧
      r.result = .ok [exGenesis] ∧ r.fs.files exLedger = some (.json [exGenesis])) := by
  have hs : ProofOfWork exEnv 3 (CreateGenesisBlock 1700000000) = some exSealed := by decide
  obtain ⟨r1, h1, _, h2, _⟩ :=
    (loadBlockchain_bootstrap exNoFile 3 1700000000 exEnv exLedger (Or.inl rfl)
      (by decide)).2 exSealed hs
  obtain ⟨r2, k1, _, k2, _⟩ :=
    (loadBlockchain_bootstrap exEmptyFile 3 1700000000 exEnv exLedger
      (Or.inr ⟨by decide, rfl⟩) (by decide)).2 exSealed hs
  have h3 := h2 rfl
  have k3 := k2 rfl
  exact ⟨⟨r1, h1, h3.1, h3.2.2.2.2.2.2.2⟩, ⟨r2, k1, k3.1, k3.2.2.2.2.2.2.2⟩⟩

set_option maxRecDepth 100000 in
/-- Counterexample to C8 as stated: the ledger does not exist and cannot be
written because its directory is missing; loadBlockchain seals a genesis block
and then returns the error of the write. -/
theorem loadBlockchain_write_error :
    exNoDir.files exLedger = none ∧
    (loadBlockchain exNoDir 3 1700000000 exEnv exLedger).map (fun r => r.result) =
      some (.error "open ledgers/blockchain-1.json: no such file or directory") := by
  have hs : ProofOfWork exEnv 3 (CreateGenesisBlock 1700000000) = some exSealed := by decide
  refine ⟨rfl, ?_⟩
  rw [loadBlockchain_eq_fresh exNoDir 3 1700000000 exEnv exLedger (Or.inl rfl),
    loadBlockchain.fresh_of_seal exNoDir 3 1700000000 exEnv exLedger exSealed hs]
  rfl

/-! ## Proof of work: a schedule under which the search returns -/

theorem run_snoc (difficulty : Int) (es : List Event) (e : Event) :
    ∀ s s1 : Seal, run difficulty s es = some s1 →
      run difficulty s (es ++ [e]) = step difficulty s1 e := by
  induction es with
  | nil =>
    intro s s1 h
    cases h
    simp only [List.nil_append, run]
    cases step difficulty s e <;> rfl
  | cons e0 es ih =>
    intro s s1 h
    simp only [List.cons_append, run] at h ⊢
    cases h0 : step difficulty s e0 with
    | none =>
      rw [h0] at h
      cases h
    | some s0 =>
      rw [h0] at h
      exact ih s0 s1 h

/-- With `found` set, one step of goroutine `k` brings it to its end if it
stood at the loop head, and changes nothing else. -/
theorem step_after_found (difficulty : Int) (s1 : Seal) (k : Nat) (hf1 : s1.found = true)
    (hw1 : ∀ w ∈ s1.workers, w.pc = .loopHead ∨ w.pc = .done) :
    ∃ s2, step difficulty s1 ⟨k, 0⟩ = some s2 ∧
      s2.found = true ∧ s2.validHash = s1.validHash ∧ s2.validNonce = s1.validNonce ∧
      s2.workers.length = s1.workers.length ∧
      (∀ w ∈ s2.workers, w.pc = .loopHead ∨ w.pc = .done) ∧
      (∀ j w, s2.workers.get? j = some w → j = k ∨ s1.workers.get? j = some w) ∧
      (∀ w, s2.workers.get? k = some w → w.pc = .done) := by
  unfold step
  cases hk : s1.workers.get? k with
  | none =>
    refine ⟨s1, rfl, hf1, rfl, rfl, rfl, hw1, fun j w h => Or.inr h, ?_⟩
    intro w hw
    rw [hk] at hw
    cases hw
  | some wk =>
    have hlt : k < s1.workers.length := (List.get?_eq_some.mp hk).1
    rcases hw1 wk (List.get?_mem hk) with hpc | hpc
    · have hstep : stepWorker difficulty s1 k 0 wk =
          some { s1 with workers := s1.workers.set k { wk with pc := .done } } := by
        unfold stepWorker
        simp [hpc, hf1]
      refine ⟨_, hstep, hf1, rfl, rfl, by simp, ?_, ?_, ?_⟩
      · intro w hw2
        rcases List.mem_or_eq_of_mem_set hw2 with h | h
        · exact hw1 w h
        · rw [h]
          exact Or.inr rfl
      · intro j w hjw
        by_cases hne : k = j
        · exact Or.inl hne.symm
        · right
          simp only [List.get?_eq_getElem?] at hjw ⊢
          rw [List.getElem?_set_ne hne] at hjw
          exact hjw
      · intro w hw
        simp only [List.get?_eq_getElem?] at hw
        rw [List.getElem?_set_self hlt] at hw
        cases hw
        rfl
    · have hstep : stepWorker difficulty s1 k 0 wk = some s1 := by
        unfold stepWorker
        simp [hpc]
      refine ⟨s1, hstep, hf1, rfl, rfl, rfl, hw1, fun j w h => Or.inr h, ?_⟩
      intro w hw
      rw [hk] at hw
      cases hw
      exact hpc

/-- Once `found` is set, letting the goroutines 0 .. k-1 run one step each
brings those that stood at the loop head to their end. -/
theorem run_sweep (difficulty : Int) (k : Nat) :
    ∀ s : Seal, s.found = true →
      (∀ w ∈ s.workers, w.pc = .loopHead ∨ w.pc = .done) →
      ∃ s', run difficulty s ((List.range k).map fun i => (⟨i, 0⟩ : Event)) = some s' ∧
        s'.found = true ∧ s'.validHash = s.validHash ∧ s'.validNonce = s.validNonce ∧
        s'.workers.length = s.workers.length ∧
        (∀ w ∈ s'.workers, w.pc = .loopHead ∨ w.pc = .done) ∧
        (∀ j w, j < k → s'.workers.get? j = some w → w.pc = .done) := by
  induction k with
  | zero =>
    intro s hf hw
    exact ⟨s, rfl, hf, rfl, rfl, rfl, hw, fun j w hj => absurd hj (Nat.not_lt_zero j)⟩
  | succ k ih =>
    intro s hf hw
    obtain ⟨s1, hrun, hf1, hh1, hn1, hl1, hw1, hd1⟩ := ih s hf hw
    obtain ⟨s2, hstep, hf2, hh2, hn2, hl2, hw2, hother, hk2⟩ :=
      step_after_found difficulty s1 k hf1 hw1
    refine ⟨s2, ?_, hf2, hh2.trans hh1, hn2.trans hn1, hl2.trans hl1, hw2, ?_⟩
    · rw [List.range_succ, List.map_append]
      exact (run_snoc difficulty _ _ s s1 hrun).trans hstep
    · intro j w hj hjw
      rcases hother j w hjw with h | h
      · subst h
        exact hk2 w hjw
      · have hjk : j < k ∨ j = k := Nat.lt_succ_iff_lt_or_eq.mp hj
        rcases hjk with h2 | h2
        · exact hd1 j w h2 h
        · subst h2
          exact hk2 w hjw

theorem run_append_some (difficulty : Int) (es1 es2 : List Event) :
    ∀ s s1 : Seal, run difficulty s es1 = some s1 →
      run difficulty s (es1 ++ es2) = run difficulty s1 es2 := by
  induction es1 with
  | nil =>
    intro s s1 h
    cases h
    rfl
  | cons e0 es ih =>
    intro s s1 h
    simp only [List.cons_append, run] at h ⊢
    cases h0 : step difficulty s e0 with
    | none =>
      rw [h0] at h
      cases h
    | some s0 =>
      rw [h0] at h
      exact ih s0 s1 h

/-- ProofOfWork returns under some schedule as soon as some nonce gives a
qualifying hash: for every candidate block, every difficulty that is not
negative and every positive number of goroutines, the schedule
`winningSchedule` makes the call return with that nonce. -/
theorem ProofOfWork_can_return (numThreads : Nat) (hn : 0 < numThreads) (difficulty : Int)
    (b : Block) (nonce : Nat) (elapsed : Int) (zeros : String)
    (hz : Repeat "0" difficulty = some zeros)
    (hq : HasPrefix (CalculateHash { b with Nonce := ((nonce % 9223372036854775808 : Nat) : Int) })
      zeros = true) :
    ∃ r, ProofOfWork ⟨numThreads, winningSchedule numThreads nonce, elapsed⟩ difficulty b =
        some r ∧
      r.block.Nonce = ((nonce % 9223372036854775808 : Nat) : Int) := by
  obtain ⟨m, rfl⟩ : ∃ m, numThreads = m + 1 := ⟨numThreads - 1, by omega⟩
  -- the state after the three steps of goroutine 0
  let lb : Block := { b with Nonce := ((nonce % 9223372036854775808 : Nat) : Int) }
  let s3 : Seal :=
    { found := true, validHash := CalculateHash lb, validNonce := lb.Nonce,
      workers := { pc := .done, localBlock := lb } ::
        List.replicate m { pc := .loopHead, localBlock := b } }
  have h3 : run difficulty (initSeal (m + 1) b) [⟨0, 0⟩, ⟨0, nonce⟩, ⟨0, 0⟩] = some s3 := by
    simp only [run, step, stepWorker, initSeal, List.replicate_succ, List.get?, hz, hq,
      List.set_cons_zero, Bool.not_false, Bool.not_true, if_true, if_false]
  have hw3 : ∀ w ∈ s3.workers, w.pc = .loopHead ∨ w.pc = .done := by
    intro w hw
    rcases List.mem_cons.mp hw with h | h
    · rw [h]
      exact Or.inr rfl
    · rw [List.eq_of_mem_replicate h]
      exact Or.inl rfl
  obtain ⟨s', hrun, hf, hh, hnn, hl, hw, hd⟩ := run_sweep difficulty (m + 1) s3 rfl hw3
  have hall : (s'.workers.all fun w => w.pc == .done) = true := by
    rw [List.all_eq_true]
    intro w hw2
    obtain ⟨j, hj, hjw⟩ := List.getElem_of_mem hw2
    have hj2 : j < m + 1 := by
      have : s3.workers.length = m + 1 := by simp [s3]
      omega
    have := hd j w hj2 (by rw [List.get?_eq_getElem?, List.getElem?_eq_getElem hj, hjw])
    simp [this]
  have hfull : run difficulty (initSeal (m + 1) b) (winningSchedule (m + 1) nonce) = some s' := by
    unfold winningSchedule
    rw [run_append_some difficulty _ _ _ _ h3]
    exact hrun
  refine ⟨{ block := { b with Hash := s'.validHash, Nonce := s'.validNonce },
            ret := s'.validHash, difficulty := adjustDifficulty difficulty elapsed }, ?_, ?_⟩
  · unfold ProofOfWork
    simp only [hfull, hall, if_true]
  · show s'.validNonce = _
    rw [hnn]

/-! ## The voting contract -/

/-- On the contract NewVotingSmartContract returns, CastVote finds no key in
`Votes`, whatever the candidates and the transaction. -/
theorem CastVote_new (candidates : List String) (t : Transaction) :
    (NewVotingSmartContract candidates).CastVote t =
      (some "candidate does not exist", NewVotingSmartContract candidates) := rfl

/-- On a contract whose map holds the key, CastVote returns nil and raises
that count by one, leaving the other counts as they were. -/
theorem CastVote_of_key (vsc : VotingSmartContract) (t : Transaction) (n : Int)
    (hkey : vsc.Votes t.Data = some n) (hn : n < 9223372036854775807)
    (hlo : -9223372036854775808 ≤ n) :
    (vsc.CastVote t).1 = none ∧
    countOf (vsc.CastVote t).2.GetResults t.Data = countOf vsc.GetResults t.Data + 1 ∧
    ∀ c, c ≠ t.Data → (vsc.CastVote t).2.GetResults c = vsc.GetResults c := by
  have hw : wrapInt64 (n + 1) = n + 1 :=
    wrapInt64_of_range (show -9223372036854775808 ≤ n + 1 by omega)
      (show n + 1 ≤ 9223372036854775807 by omega)
  unfold VotingSmartContract.CastVote VotingSmartContract.GetResults countOf
  rw [hkey]
  refine ⟨rfl, ?_, ?_⟩
  · simp [hw]
  · intro c hc
    simp [Function.update, hc]

/-- C11: CastVote on the contract NewVotingSmartContract returns never casts a
vote.  With the candidates "alice" and "bob", a transaction for "alice", who
is a candidate, is answered by the error "candidate does not exist", and the
count GetResults reports for "alice" is not raised: the map `Votes` is created
without any key, and CastVote looks the candidate up in that map. -/
theorem CastVote_rejects_candidate :
    "alice" ∈ (NewVotingSmartContract ["alice", "bob"]).Candidates ∧
    ((NewVotingSmartContract ["alice", "bob"]).CastVote
      { Data := "alice", Timestamp := 1700000000, Signature := "" }).1 =
      some "candidate does not exist" ∧
    countOf ((NewVotingSmartContract ["alice", "bob"]).CastVote
      { Data := "alice", Timestamp := 1700000000, Signature := "" }).2.GetResults "alice" =
      countOf (NewVotingSmartContract ["alice", "bob"]).GetResults "alice" ∧
    (NewVotingSmartContract ["alice", "bob"]).GetResults "alice" = none := by
  decide

/-! ## The digested record -/

theorem CalculateHash_congr (b1 b2 : Block) (h : record b1 = record b2) :
    CalculateHash b1 = CalculateHash b2 := by
  unfold CalculateHash
  rw [h]

set_option maxRecDepth 100000 in
/-- C15: the record CalculateHash digests does not determine the five fields.
The block with index 1 and timestamp 23 and the block with index 12 and
timestamp 3, all else equal, have the same record, and so have the block with
ballot "a b" and choice "c" and the block with ballot "a" and choice "b c";
blocks with the same record have the same CalculateHash, and ValidateBlock
accepts both blocks of each pair with one and the same stored Hash. -/
theorem record_not_injective :
    (exSplitA.Index ≠ exSplitB.Index ∧ exSplitA.Timestamp ≠ exSplitB.Timestamp ∧
      exSplitB = { exSplitA with Index := 12, Timestamp := 3 } ∧
      record exSplitA = record exSplitB ∧
      CalculateHash exSplitA = CalculateHash exSplitB ∧
      exSplitA.Hash = exSplitB.Hash ∧
      ValidateBlock exSplitA = true ∧ ValidateBlock exSplitB = true) ∧
    (exSpaceA.Data ≠ exSpaceB.Data ∧
      exSpaceB = { exSpaceA with Data := { BallotID := "a", ChoiceID := "b c" } } ∧
      record exSpaceA = record exSpaceB ∧
      CalculateHash exSpaceA = CalculateHash exSpaceB ∧
      exSpaceA.Hash = exSpaceB.Hash ∧
      ValidateBlock exSpaceA = true ∧ ValidateBlock exSpaceB = true) ∧
    (∀ b1 b2 : Block, record b1 = record b2 → CalculateHash b1 = CalculateHash b2) ∧
    ¬ (∀ b1 b2 : Block, record b1 = record b2 →
        b1.Index = b2.Index ∧ b1.Timestamp = b2.Timestamp ∧ b1.Data = b2.Data ∧
          b1.PrevHash = b2.PrevHash ∧ b1.Nonce = b2.Nonce) := by
  have hsplit : record exSplitA = record exSplitB := by decide
  have hspace : record exSpaceA = record exSpaceB := by decide
  have hva : ValidateBlock exSplitA = true := by decide
  have hvs : ValidateBlock exSpaceA = true := by decide
  refine ⟨⟨by decide, by decide, rfl, hsplit, CalculateHash_congr _ _ hsplit, rfl, hva, ?_⟩,
    ⟨by decide, rfl, hspace, CalculateHash_congr _ _ hspace, rfl, hvs, ?_⟩,
    CalculateHash_congr, ?_⟩
  · rw [ValidateBlock_iff, ← CalculateHash_congr _ _ hsplit]
    exact (ValidateBlock_iff _).mp hva
  · rw [ValidateBlock_iff, ← CalculateHash_congr _ _ hspace]
    exact (ValidateBlock_iff _).mp hvs
  · intro h
    have := (h exSplitA exSplitB hsplit).1
    revert this
    decide

/-! ## Replication keeps the chain valid -/

theorem ValidateBlockchain_iff_get? (chain : Blockchain) :
    ValidateBlockchain chain = true ↔
      ∀ j, 1 ≤ j → ∀ cur prev, chain.get? j = some cur → chain.get? (j - 1) = some prev →
        ValidateBlock cur = true ∧ cur.PrevHash = prev.Hash := by
  unfold ValidateBlockchain
  rw [ValidateBlockchain.loop_iff]
  constructor
  · intro H j h1 cur prev hc hp
    have hj : j < chain.length := (List.get?_eq_some.mp hc).1
    exact H j h1 (by omega) cur prev hc hp
  · intro H j h1 _ cur prev hc hp
    exact H j h1 cur prev hc hp

/-- A valid chain stays valid when a block that validates and names the Hash
of the last block as PrevHash is appended; on the empty chain any block will
do. -/
theorem ValidateBlockchain_append (chain : Blockchain) (b : Block)
    (hc : ValidateBlockchain chain = true) (hv : ValidateBlock b = true)
    (hl : chain = [] ∨ ∃ last, chain.getLast? = some last ∧ b.PrevHash = last.Hash) :
    ValidateBlockchain (chain ++ [b]) = true := by
  rw [ValidateBlockchain_iff_get?] at hc ⊢
  intro j h1 cur prev hjc hjp
  simp only [List.get?_eq_getElem?] at hc hjc hjp
  by_cases hj : j < chain.length
  · rw [List.getElem?_append_left hj] at hjc
    rw [List.getElem?_append_left (by omega)] at hjp
    exact hc j h1 cur prev hjc hjp
  · have hjlen : j = chain.length := by
      have := (List.getElem?_eq_some.mp hjc).1
      simp only [List.length_append, List.length_singleton] at this
      omega
    subst hjlen
    rw [List.getElem?_append_right (le_refl _)] at hjc
    simp only [Nat.sub_self, List.getElem?_cons_zero, Option.some.injEq] at hjc
    subst hjc
    refine ⟨hv, ?_⟩
    rcases hl with h | ⟨last, hlast, hp⟩
    · rw [h] at h1
      simp at h1
    · rw [List.getElem?_append_left (by omega)] at hjp
      rw [List.getLast?_eq_getElem?] at hlast
      rw [hlast] at hjp
      cases hjp
      exact hp

/-- C13: for every chain for which ValidateBlockchain is true and every
outcome of decoding a block (an error, or a block, valid or not, linking or
not), the chain handleBlock leaves again satisfies ValidateBlockchain; it is
either the old chain or the old chain with that one block appended at the end,
and the old chain is a prefix of it. -/
theorem handleBlock_preserves_valid (chain : Blockchain) (decoded : Except String Block)
    (hc : ValidateBlockchain chain = true) :
    ValidateBlockchain (handleBlock decoded chain) = true ∧
    (handleBlock decoded chain = chain ∨
      ∃ b, decoded = .ok b ∧ handleBlock decoded chain = chain ++ [b]) ∧
    chain <+: handleBlock decoded chain := by
  cases decoded with
  | error e =>
    exact ⟨hc, Or.inl rfl, List.prefix_refl _⟩
  | ok b =>
    rw [handleBlock_ok]
    by_cases h : ValidateBlock b = true ∧
        (chain = [] ∨ ∃ last, chain.getLast? = some last ∧ b.PrevHash = last.Hash)
    · rw [if_pos h]
      exact ⟨ValidateBlockchain_append chain b hc h.1 h.2, Or.inr ⟨b, rfl, rfl⟩,
        List.prefix_append _ _⟩
    · rw [if_neg h]
      exact ⟨hc, Or.inl rfl, List.prefix_refl _⟩

set_option maxRecDepth 100000 in
/-- Witness for C13: the sealed successor of the genesis block arrives at the
chain that holds the sealed genesis block. -/
theorem handleBlock_preserves_valid_witness :
    handleBlock (.ok exB1) [exGenesis] = [exGenesis, exB1] ∧
    ValidateBlockchain (handleBlock (.ok exB1) [exGenesis]) = true :=
  ⟨by decide, (handleBlock_preserves_valid [exGenesis] (.ok exB1) (by decide)).1⟩

/-! ## Outbound fan-out of the API handlers -/

/-- The recipients of the two broadcasts of package api are the peers that
differ from the constant "http://localhost:8080". -/
theorem api.mem_broadcast (KnownNodes : List String) (peer : String) :
    peer ∈ api.broadcast KnownNodes ↔ peer ∈ KnownNodes ∧ peer ≠ "http://localhost:8080" := by
  unfold api.broadcast api.nodeAddress
  simp [List.mem_filter]

/-- Whenever castVoteHandler answers with the new block, it has sent the block
to every peer that differs from the constant "http://localhost:8080", in the
order of the peer set. -/
theorem castVoteHandler_sent (decoded : Except String VoteRequest) (KnownNodes : List String)
    (fs : FileSystem) (difficulty now : Int) (env : SealEnv) (h : Handled) (b : Block)
    (hret : castVoteHandler decoded KnownNodes fs difficulty now env = some h)
    (hreply : h.reply = .block b) : h.sent = api.broadcast KnownNodes := by
  unfold castVoteHandler at hret
  split at hret
  · cases hret
    cases hreply
  · try simp only at hret
    split at hret
    · cases hret
      cases hreply
    · split at hret
      · cases hret
        cases hreply
      · split at hret
        · cases hret
          cases hreply
        · try simp only at hret
          split at hret
          · cases hret
          · try simp only at hret
            split at hret
            · cases hret
              cases hreply
            · split at hret
              · cases hret
                cases hreply
              · cases hret
                rfl

/-- Whenever createRoomHandler answers with the new room, it has sent the room
to every peer that differs from the constant "http://localhost:8080", in the
order of the peer set. -/
theorem createRoomHandler_sent (decoded : Except String RoomRequest) (uuid : String)
    (mkdirError : Option String) (rooms : String → Option storage.Room)
    (KnownNodes : List String) (fs : FileSystem) (difficulty now : Int) (env : SealEnv)
    (h : Handled) (rooms' : String → Option storage.Room) (r : storage.Room)
    (hret : createRoomHandler decoded uuid mkdirError rooms KnownNodes fs difficulty now env =
      some (h, rooms'))
    (hreply : h.reply = .room r) : h.sent = api.broadcast KnownNodes := by
  unfold createRoomHandler at hret
  split at hret
  · cases hret
    cases hreply
  · simp only [storage.CreateRoom] at hret
    split at hret
    · cases hret
      cases hreply
    · try simp only at hret
      split at hret
      · cases hret
      · try simp only at hret
        split at hret
        · cases hret
          cases hreply
        · cases hret
          rfl

set_option maxRecDepth 100000 in
/-- C12: the block broadcast of castVoteHandler and the room broadcast of
createRoomHandler do not leave the node itself out.  Discovery has recorded
the node's own address 192.168.1.5:8594 (local IP and serving port) and the
address of one other node; both handlers send to both addresses, the node's
own included, because they compare each peer with the constant
"http://localhost:8080"; broadcastBlock of the voting-node command, which
compares with the local IP and serving port, sends to the other node only. -/
theorem api_broadcast_reaches_self :
    exPeers = [startServer.nodeAddress exLocalIP "8594", "192.168.1.6:8594"] ∧
    (castVoteHandler (.ok exVote) exPeers exRoomLedger 3 1700000060 exEnvVote).map
      (fun h => (h.reply, h.sent)) =
      some (.block exB1, ["192.168.1.5:8594", "192.168.1.6:8594"]) ∧
    (createRoomHandler (.ok exRoomRequest) "room-uuid" none (fun _ => none) exPeers exNoFile 3
      1700000000 exEnv).map (fun h => h.1.sent) =
      some ["192.168.1.5:8594", "192.168.1.6:8594"] ∧
    startServer.nodeAddress exLocalIP "8594" ∈ api.broadcast exPeers ∧
    broadcastBlock exPeers (startServer.nodeAddress exLocalIP "8594") = ["192.168.1.6:8594"] := by
  decide

/-! ## The tip lookup on a ledger without blocks -/

/-- A readable ledger that decodes to `chain` is returned as it is when it
passes ValidateBlockchain, the chain without any block included. -/
theorem loadBlockchain_json (fs : FileSystem) (difficulty now : Int) (env : SealEnv)
    (filename : String) (chain : Blockchain)
    (hfile : fs.files filename = some (.json chain)) (hread : fs.readError filename = none)
    (hvalid : ValidateBlockchain chain = true) :
    ∃ r, loadBlockchain fs difficulty now env filename = some r ∧ r.result = .ok chain := by
  unfold loadBlockchain ReadFile
  simp [hfile, hread, Unmarshal, hvalid]

set_option maxRecDepth 100000 in
/-- C14: loadBlockchain returns a chain without any block, and the tip lookup
then indexes out of range.  A ledger file that holds the JSON text of an empty
sequence (such a file is what handleRoom writes for a room received without
blocks) is decoded to the chain of length 0, which passes ValidateBlockchain;
loadBlockchain returns it without error and castVote panics at
`blockchain[len(blockchain)-1]`; LoadBlockchain and validateLedger succeed on
it and castVoteHandler panics at the same lookup. -/
theorem tip_lookup_out_of_range :
    (handleRoom (.ok { RoomID := "1", Blockchain := [] }) exNoFile).files
      "./ledgers/blockchain-1.json" = some (.json []) ∧
    (loadBlockchain exNoBlock 3 1700000000 exEnv exLedger).map (fun r => r.result) =
      some (.ok []) ∧
    (castVote exNoBlock 3 1700000000 exEnv 1700000060 exEnvVote exLedger "ballot-1" "bob").map
      (fun r => r.outcome) = some .panicked ∧
    LoadBlockchain exRoomNoBlock "./ledgers/blockchain-1.json" = .ok [] ∧
    validateLedger exRoomNoBlock "./ledgers/blockchain-1.json" = none ∧
    (castVoteHandler (.ok exVote) exPeers exRoomNoBlock 3 1700000060 exEnvVote).map
      (fun h => h.reply) = some .panicked := by
  refine ⟨?_, ?_, ?_, ?_, ?_, ?_⟩ <;> rfl

end Voting
